import Mathlib

/-!
A verification development for the parchment document-model core bundled in
this repository (`src/parchment/dist/parchment.js`) together with the
image-grid embed widget (`src/unnamed/part_000`).

Each JavaScript function under scrutiny is shallowly embedded as an
executable Lean definition that mirrors its control flow.  DOM nodes are
modelled as inductive trees, JS strings as `List Char` where character-level
structure matters, machine numbers as `Nat`/`Int`, and thrown exceptions as
`Except`/`Option` results.  Mutation is rendered as explicit state passing:
a function that rewires a node in place becomes a function returning the
rewritten node.
-/

namespace Parchment

/-! ## Scope bitmask constants

Embedded from the `Scope` enum of parchment.js:
`TYPE=3, LEVEL=12, ATTRIBUTE=13, BLOT=14, INLINE=7, BLOCK=11,
 BLOCK_BLOT=10, INLINE_BLOT=6, BLOCK_ATTRIBUTE=9, INLINE_ATTRIBUTE=5, ANY=15`. -/

def Scope.TYPE : Nat := 3
def Scope.LEVEL : Nat := 12
def Scope.ATTRIBUTE : Nat := 13
def Scope.BLOT : Nat := 14
def Scope.INLINE : Nat := 7
def Scope.BLOCK : Nat := 11
def Scope.BLOCK_BLOT : Nat := 10
def Scope.INLINE_BLOT : Nat := 6
def Scope.ANY : Nat := 15

/-! ## C10: the Attributor constructor's scope computation

From the `Attributor` constructor:
`const i = Scope.TYPE & Scope.ATTRIBUTE;`
`this.scope = null != options.scope ? (options.scope & Scope.LEVEL) | i : Scope.ATTRIBUTE;`
The options argument is modelled as an `Option Nat` (the `scope` option,
absent or a bitmask). -/

def Attributor.ctorScope (optScope : Option Nat) : Nat :=
  match optScope with
  | some s => (s &&& Scope.LEVEL) ||| (Scope.TYPE &&& Scope.ATTRIBUTE)
  | none => Scope.ATTRIBUTE

/-- The scope filter applied at the end of `Registry.query`:
`e & Scope.LEVEL & s.scope && e & Scope.TYPE & s.scope ? s : null`
(a JS numeric is truthy iff nonzero). -/
def Registry.scopeMatches (probe scope : Nat) : Bool :=
  (probe &&& Scope.LEVEL &&& scope ≠ 0) ∧ (probe &&& Scope.TYPE &&& scope ≠ 0)

theorem ctorScope_and_TYPE (s : Nat) :
    ((s &&& Scope.LEVEL) ||| (Scope.TYPE &&& Scope.ATTRIBUTE)) &&& Scope.TYPE = 1 := by
  show ((s &&& 12) ||| 1) &&& 3 = 1
  have h0 : s &&& 12 &&& 3 = 0 := by
    rw [Nat.and_assoc, show (12 : Nat) &&& 3 = 0 from rfl, Nat.and_zero]
  rw [Nat.and_distrib_right, h0, show (1 : Nat) &&& 3 = 1 from rfl, Nat.zero_or]

/-- **C10** (invariant).  Every `Attributor`, however constructed, has a scope
whose TYPE bits are exactly the attribute TYPE bit (`scope &&& TYPE = 1`,
never the blot TYPE bit `2`); consequently `Registry.query`'s scope filter
rejects it against every blot-scoped probe (a probe whose TYPE bits are the
blot bit), and with no scope option the scope is the plain `ATTRIBUTE`
constant. -/
theorem attributor_scope_never_blot :
    (∀ opt : Option Nat, Attributor.ctorScope opt &&& Scope.TYPE = 1) ∧
    (∀ (opt : Option Nat) (probe : Nat), probe &&& Scope.TYPE = 2 →
      Registry.scopeMatches probe (Attributor.ctorScope opt) = false) ∧
    Attributor.ctorScope none = Scope.ATTRIBUTE := by
  have hand : ∀ opt : Option Nat, Attributor.ctorScope opt &&& Scope.TYPE = 1 := by
    intro opt
    match opt with
    | none => decide
    | some s => exact ctorScope_and_TYPE s
  refine ⟨hand, ?_, rfl⟩
  intro opt probe hprobe
  have hzero : probe &&& Scope.TYPE &&& Attributor.ctorScope opt = 0 := by
    have h1 : probe &&& Scope.TYPE &&& Attributor.ctorScope opt
        = probe &&& (Scope.TYPE &&& Attributor.ctorScope opt) := Nat.and_assoc ..
    have h2 : Scope.TYPE &&& Attributor.ctorScope opt
        = Attributor.ctorScope opt &&& Scope.TYPE := Nat.and_comm ..
    rw [h1, h2, hand opt]
    -- probe &&& 1 = 0 because probe's TYPE bits equal 2 (bit 0 of probe is clear)
    have h3 : probe &&& 1 = probe &&& Scope.TYPE &&& 1 := by
      rw [Nat.and_assoc, show Scope.TYPE &&& 1 = 1 from rfl]
    rw [h3, hprobe]
    rfl
  simp [Registry.scopeMatches, hzero]

/-- Witness for C10 at a concrete input: the INLINE scope option produces the
INLINE_ATTRIBUTE scope (5), and the blot-scoped probe INLINE_BLOT (6) is
rejected. -/
theorem attributor_scope_never_blot_witness :
    Attributor.ctorScope (some Scope.INLINE) = 5 ∧
    Registry.scopeMatches Scope.INLINE_BLOT (Attributor.ctorScope (some Scope.INLINE)) = false :=
  ⟨by decide, attributor_scope_never_blot.2.1 (some Scope.INLINE) Scope.INLINE_BLOT (by decide)⟩

/-! ## C1: LinkedList.find

The linked list is embedded as a `List α` of its entries (head first) with an
entry-length function `len`; `find` returns the entry together with the
remaining offset, exactly following the source:

`find(t, e = false) { ... while (i) { const r = i.length();`
`  if (t < r || e && t === r && (null == i.next || 0 !== i.next.length()))`
`    return [i, t];`
`  t -= r; i = next; } return [null, 0]; }` -/

namespace LinkedList

/-- `null == i.next || 0 !== i.next.length()` for the list of entries after
the current one. -/
def nextStopOk (len : α → Nat) : List α → Bool
  | [] => true
  | x :: _ => len x ≠ 0

def find (len : α → Nat) : List α → Nat → Bool → Option (α × Nat)
  | [], _, _ => none
  | i :: rest, t, e =>
    if t < len i ∨ (e ∧ t = len i ∧ nextStopOk len rest) then some (i, t)
    else find len rest (t - len i) e

/-- The behaviour claim C1 asserts, taken at its word: `find` walks from the
head subtracting lengths until the remainder is below the current entry's
length; when `preferEnd` holds and the remainder equals the entry's length it
*continues to the next entry* unless that next entry has zero length (the
non-empty entry preferred at a boundary). -/
def findClaimed (len : α → Nat) : List α → Nat → Bool → Option (α × Nat)
  | [], _, _ => none
  | i :: rest, t, e =>
    if t < len i then some (i, t)
    else if e ∧ t = len i ∧ nextStopOk len rest = false then some (i, t)
    else findClaimed len rest (t - len i) e

/-- Claim C1 as the code forces it to be amended: when `preferEnd` holds and
the remainder equals the current entry's length the search *stops at the
current entry* (returning it with the remainder equal to its length), unless
the next entry exists and has zero length, in which case it continues and
lands in that empty entry — at a boundary the empty entry is preferred. -/
def findAmended (len : α → Nat) : List α → Nat → Bool → Option (α × Nat)
  | [], _, _ => none
  | i :: rest, t, e =>
    if t < len i then some (i, t)
    else if e ∧ t = len i then
      if nextStopOk len rest = false then findAmended len rest (t - len i) e
      else some (i, t)
    else findAmended len rest (t - len i) e

end LinkedList

/-- **C1 counterexample.**  On the entry lengths `[2, 3]` at offset `2` with
`preferEnd = true`, the code stops at the first entry (remainder `2`), while
the claim's tie-break ("continues to the next entry unless it has zero
length") demands the second entry at remainder `0`. -/
theorem find_tiebreak_counterexample :
    LinkedList.find id [2, 3] 2 true = some (2, 2) ∧
    LinkedList.findClaimed id [2, 3] 2 true = some (3, 0) ∧
    LinkedList.find id [2, 3] 2 true ≠ LinkedList.findClaimed id [2, 3] 2 true := by
  refine ⟨rfl, rfl, by decide⟩

/-- **C1 amended.**  `find` agrees everywhere with the amended description:
walk from the head subtracting entry lengths until the remainder is less than
the current entry's length; with `preferEnd`, at an exact boundary stay on
the current entry unless the next entry has zero length, in which case
continue into the empty entry. -/
theorem find_eq_findAmended {α : Type} (len : α → Nat) (ls : List α) (t : Nat) (e : Bool) :
    LinkedList.find len ls t e = LinkedList.findAmended len ls t e := by
  induction ls generalizing t with
  | nil => rfl
  | cons i rest ih =>
    simp only [LinkedList.find, LinkedList.findAmended]
    by_cases h1 : t < len i
    · rw [if_pos (Or.inl h1), if_pos h1]
    · rw [if_neg h1]
      by_cases h2 : (e = true) ∧ t = len i
      · rcases h2 with ⟨he, ht⟩
        by_cases h3 : LinkedList.nextStopOk len rest = false
        · rw [if_neg, if_pos ⟨he, ht⟩, if_pos h3, ih]
          rintro (hlt | ⟨_, _, hok⟩)
          · exact h1 hlt
          · rw [h3] at hok
            cases hok
        · have h3' : LinkedList.nextStopOk len rest = true := by
            revert h3
            cases LinkedList.nextStopOk len rest <;> simp
          rw [if_pos (Or.inr ⟨he, ht, h3'⟩), if_pos ⟨he, ht⟩, if_neg h3]
      · rw [if_neg, if_neg h2, ih]
        rintro (hlt | ⟨he, ht, _⟩)
        · exact h1 hlt
        · exact h2 ⟨he, ht⟩

/-! ## C6: the optimize fixed-point loop bound

From `ScrollBlot.optimize`:
`for (let e = 0; o.length > 0; e += 1) { if (e >= MAX_OPTIMIZE_ITERATIONS)`
`throw new Error("[Parchment] Maximum optimize iterations reached"); ...;`
`i = (o = Array.from(this.observer.takeRecords())).slice(); ... }`

The loop body (marking ancestors dirty and visiting dirty blots bottom-up)
feeds back into the loop only through the observer's record stream, which
the host owns; it is abstracted as a stream `takeRecords` indexed by the
iteration at which it is drained.  Everything about the claim — the 100
bound and the throw — lives in the loop skeleton, which is kept exactly. -/

/-- A pending host mutation record; only its presence drives the loop. -/
structure MutationRecord where
  target : Nat
deriving DecidableEq

def MAX_OPTIMIZE_ITERATIONS : Nat := 100

def scrollOptimizeLoop (takeRecords : Nat → List MutationRecord)
    (e : Nat) (o : List MutationRecord) : Except String Nat :=
  if o.isEmpty then .ok e
  else if MAX_OPTIMIZE_ITERATIONS ≤ e then
    .error "[Parchment] Maximum optimize iterations reached"
  else scrollOptimizeLoop takeRecords (e + 1) (takeRecords e)
termination_by MAX_OPTIMIZE_ITERATIONS - e
decreasing_by simp only [MAX_OPTIMIZE_ITERATIONS] at *; omega

theorem scrollOptimizeLoop_ok_le (takeRecords : Nat → List MutationRecord) :
    ∀ (k e : Nat), e + k = MAX_OPTIMIZE_ITERATIONS →
    ∀ (o : List MutationRecord) (n : Nat),
      scrollOptimizeLoop takeRecords e o = .ok n → n ≤ MAX_OPTIMIZE_ITERATIONS := by
  intro k
  induction k with
  | zero =>
    intro e he o n h
    rw [scrollOptimizeLoop] at h
    by_cases ho : o.isEmpty
    · simp only [ho, if_pos] at h
      cases h
      omega
    · simp only [ho, if_neg, Bool.false_eq_true, if_false] at h
      rw [if_pos (by omega)] at h
      cases h
  | succ k ih =>
    intro e he o n h
    rw [scrollOptimizeLoop] at h
    by_cases ho : o.isEmpty
    · simp only [ho, if_pos] at h
      cases h
      omega
    · simp only [ho, Bool.false_eq_true, if_false] at h
      rw [if_neg (by omega)] at h
      exact ih (e + 1) (by omega) _ n h

theorem scrollOptimizeLoop_adversarial (takeRecords : Nat → List MutationRecord)
    (hstream : ∀ i, takeRecords i ≠ []) :
    ∀ (k e : Nat), e + k = MAX_OPTIMIZE_ITERATIONS →
    ∀ (o : List MutationRecord), o ≠ [] →
      scrollOptimizeLoop takeRecords e o
        = .error "[Parchment] Maximum optimize iterations reached" := by
  intro k
  induction k with
  | zero =>
    intro e he o ho
    rw [scrollOptimizeLoop]
    rw [if_neg (by simp [List.isEmpty_iff, ho]), if_pos (by omega)]
  | succ k ih =>
    intro e he o ho
    rw [scrollOptimizeLoop]
    rw [if_neg (by simp [List.isEmpty_iff, ho]), if_neg (by omega)]
    exact ih (e + 1) (by omega) _ (hstream e)

/-- **C6.**  The optimize fixed-point loop performs at most 100 iterations:
whenever it returns normally the iteration counter never passed 100, and for
every record stream that still surfaces records at every drain (in
particular at the 100th iteration) it aborts with the
MaxIterationsExceeded error instead of iterating further. -/
theorem optimize_loop_bounded :
    (∀ (takeRecords : Nat → List MutationRecord) (o : List MutationRecord) (n : Nat),
      scrollOptimizeLoop takeRecords 0 o = .ok n → n ≤ MAX_OPTIMIZE_ITERATIONS) ∧
    (∀ (takeRecords : Nat → List MutationRecord) (o : List MutationRecord),
      (∀ i, takeRecords i ≠ []) → o ≠ [] →
      scrollOptimizeLoop takeRecords 0 o
        = .error "[Parchment] Maximum optimize iterations reached") :=
  ⟨fun s o n h => scrollOptimizeLoop_ok_le s MAX_OPTIMIZE_ITERATIONS 0 rfl o n h,
   fun s o hs ho => scrollOptimizeLoop_adversarial s hs MAX_OPTIMIZE_ITERATIONS 0 rfl o ho⟩

/-- Witness for C6: the stream that reports a fresh record at every drain
drives the loop into the MaxIterationsExceeded error. -/
theorem optimize_loop_bounded_witness :
    scrollOptimizeLoop (fun _ => [⟨0⟩]) 0 [⟨0⟩]
      = .error "[Parchment] Maximum optimize iterations reached" :=
  optimize_loop_bounded.2 (fun _ => [⟨0⟩]) [⟨0⟩] (fun _ => by simp) (by simp)

/-! ## Registry (C2, C9)

Embedded from the `Registry` class.  JS plain objects used as string maps
become association lists where assignment prepends (newest binding first)
and lookup takes the first hit, matching overwrite semantics.  A descriptor
(the static side of a blot class or an attributor) carries the fields
`register`/`query` consult; `Option` encodes JS `undefined`. -/

structure RegDef where
  blotName : Option String
  attrName : Option String
  keyName : Option String
  className : Option String
  tagName : Option String
  scope : Nat
deriving DecidableEq

inductive ParchmentError where
  | invalidDefinition
  | abstractRegistration
  | unableToCreate
  | blotMissingTagName
deriving DecidableEq

structure Registry where
  attributes : List (String × RegDef)
  classes : List (String × RegDef)
  tags : List (String × RegDef)
  types : List (String × RegDef)
deriving DecidableEq

def emptyRegistry : Registry := ⟨[], [], [], []⟩

def mapSet (m : List (String × RegDef)) (k : String) (v : RegDef) :
    List (String × RegDef) := (k, v) :: m

def mapGet (m : List (String × RegDef)) (k : String) : Option RegDef :=
  (m.find? (fun p => p.1 == k)).map (·.2)

/-- `tagName.toUpperCase()`, written over the character list so that it
computes by kernel reduction. -/
def jsToUpper (s : String) : String := ⟨s.data.map Char.toUpper⟩

/-- `e.blotName || e.attrName` (JS `||`: an empty string is falsy). -/
def jsOrName (d : RegDef) : String :=
  match d.blotName with
  | some b => if b = "" then d.attrName.getD "" else b
  | none => d.attrName.getD ""

/-- `Registry.register` for a single definition:
validates the name, indexes under `types`, then under `attributes` when a
`keyName` is declared, otherwise under `classes`/`tags`; a definition that
carries a `className` does not overwrite an existing `tags` entry
(`null != this.tags[t] && null != e.className || (this.tags[t] = e)`). -/
def Registry.register (reg : Registry) (d : RegDef) : Except ParchmentError Registry :=
  match d with
  | ⟨bn, an, kn, cn, tn, _⟩ =>
    if bn = none ∧ an = none then .error .invalidDefinition
    else if bn = some "abstract" then .error .abstractRegistration
    else
      let reg1 := { reg with types := mapSet reg.types (jsOrName d) d }
      if kn.isSome then
        .ok { reg1 with attributes := mapSet reg1.attributes (kn.getD "") d }
      else
        let reg2 :=
          match cn with
          | some c => { reg1 with classes := mapSet reg1.classes c d }
          | none => reg1
        match tn with
        | some tag =>
          let tagU := jsToUpper tag
          if (mapGet reg2.tags tagU).isSome ∧ cn.isSome then .ok reg2
          else .ok { reg2 with tags := mapSet reg2.tags tagU d }
        | none => .ok reg2

def Registry.registerAll (reg : Registry) : List RegDef → Except ParchmentError Registry
  | [] => .ok reg
  | d :: ds =>
    match reg.register d with
    | .ok r => r.registerAll ds
    | .error err => .error err

/-- A host-tree node: an element with a tag, class tokens and children, or a
character-data node. -/
inductive DomNode where
  | elem (tag : String) (classes : List String) (children : List DomNode)
  | textNode (s : List Char)

/-- `Registry.query` on a concrete host node: class markers are inspected
first (first registered class token wins), then the tag, and the hit is kept
only when its scope intersects both the LEVEL and TYPE bits of the probe. -/
def Registry.queryNode (reg : Registry) (n : DomNode) (mask : Nat) : Option RegDef :=
  let s : Option RegDef :=
    match n with
    | .textNode _ => mapGet reg.types "text"
    | .elem tag classes _ =>
      let fromClass := classes.foldl
        (fun acc c =>
          match acc with
          | some _ => acc
          | none => mapGet reg.classes c) none
      match fromClass with
      | some d => some d
      | none => mapGet reg.tags tag
  match s with
  | none => none
  | some d => if Registry.scopeMatches mask d.scope then some d else none

/-! ### C2: which descriptor owns a shared tag -/

def defAlpha : RegDef :=
  ⟨some "alpha", none, none, none, some "X", Scope.INLINE_BLOT⟩

def defBeta : RegDef :=
  ⟨some "beta", none, none, none, some "X", Scope.INLINE_BLOT⟩

/-- **C2 counterexample.**  `alpha` and `beta` are two class-less descriptors
registered in that order under the shared tag `X`; a host node with tag `X`
and no class resolves to `beta`, the *later* registration, not the first. -/
theorem register_tag_default_counterexample :
    (emptyRegistry.registerAll [defAlpha, defBeta]).toOption.bind
        (fun r => r.queryNode (DomNode.elem "X" [] []) Scope.ANY) = some defBeta ∧
    defBeta ≠ defAlpha := by
  constructor
  · rfl
  · decide

/-- The most recent class-less definition of the list, if any. -/
def lastClassless (ds : List RegDef) : Option RegDef :=
  (ds.filter (fun d => d.className = none)).getLast?

theorem mapGet_mapSet_self (m : List (String × RegDef)) (k : String) (v : RegDef) :
    mapGet (mapSet m k v) k = some v := by
  simp [mapGet, mapSet, List.find?_cons]

/-- Registering a list of definitions that all carry a class marker (and all
name the same tag) never changes an already-present `tags` entry. -/
theorem registerAll_tags_preserved (T : String) :
    ∀ (ds : List RegDef) (reg : Registry) (x : RegDef),
    (∀ d ∈ ds, d.keyName = none ∧ d.tagName = some T ∧ d.className ≠ none ∧
      ¬(d.blotName = none ∧ d.attrName = none) ∧ d.blotName ≠ some "abstract") →
    mapGet reg.tags (jsToUpper T) = some x →
    ∃ reg', reg.registerAll ds = .ok reg' ∧ mapGet reg'.tags (jsToUpper T) = some x := by
  intro ds
  induction ds with
  | nil => exact fun reg x _ hx => ⟨reg, rfl, hx⟩
  | cons d ds ih =>
    intro reg x hall hx
    obtain ⟨hk, ht, hc, hn, ha⟩ := hall d (List.mem_cons_self ..)
    obtain ⟨bn, an, kn, cn, tn, sc⟩ := d
    simp only at hk ht hc hn ha
    subst hk ht
    rcases cn with _ | c
    · exact absurd rfl hc
    · rw [Registry.registerAll]
      have hreg : reg.register ⟨bn, an, none, some c, some T, sc⟩
          = .ok { reg with
              types := mapSet reg.types (jsOrName ⟨bn, an, none, some c, some T, sc⟩)
                ⟨bn, an, none, some c, some T, sc⟩
              classes := mapSet reg.classes c ⟨bn, an, none, some c, some T, sc⟩ } := by
        simp only [Registry.register]
        rw [if_neg hn, if_neg ha]
        simp [hx]
      rw [hreg]
      exact ih _ x (fun d' hd' => hall d' (List.mem_cons_of_mem _ hd')) hx

/-- A definition whose name fields are valid and whose `keyName` is absent
always registers without error. -/
theorem register_ok (reg : Registry) (d : RegDef) (hk : d.keyName = none)
    (hn : ¬(d.blotName = none ∧ d.attrName = none)) (ha : d.blotName ≠ some "abstract") :
    ∃ r, reg.register d = .ok r := by
  obtain ⟨bn, an, kn, cn, tn, sc⟩ := d
  simp only at hk hn ha
  subst hk
  rcases cn with _ | c <;> rcases tn with _ | tag
  all_goals
    simp only [Registry.register]
    rw [if_neg hn, if_neg ha,
      if_neg (by simp : ¬((none : Option String).isSome = true))]
    first
    | exact ⟨_, rfl⟩
    | (split <;> exact ⟨_, rfl⟩)

/-- Registering a class-less definition under tag `T` overwrites the `tags`
entry for `T` unconditionally. -/
theorem register_classless_tags (reg : Registry) (bn an : Option String) (T : String)
    (sc : Nat) (hn : ¬(bn = none ∧ an = none)) (ha : bn ≠ some "abstract") :
    ∃ r, reg.register ⟨bn, an, none, none, some T, sc⟩ = .ok r ∧
      mapGet r.tags (jsToUpper T) = some ⟨bn, an, none, none, some T, sc⟩ := by
  simp only [Registry.register]
  rw [if_neg hn, if_neg ha,
    if_neg (by simp : ¬((none : Option String).isSome = true))]
  split
  · rename_i hcond
    simp at hcond
  · exact ⟨_, rfl, mapGet_mapSet_self ..⟩

/-- Resolving a classless host node against a `tags` hit. -/
theorem queryNode_tags (reg : Registry) (tag : String) (dL : RegDef)
    (hm : mapGet reg.tags tag = some dL)
    (hs : Registry.scopeMatches Scope.ANY dL.scope = true) :
    reg.queryNode (DomNode.elem tag [] []) Scope.ANY = some dL := by
  simp [Registry.queryNode, hm, hs]

/-- **C2 amended.**  When several descriptors sharing a tag are registered in
sequence, the *most recently* registered descriptor without a class marker
becomes and remains the tag's default (a descriptor carrying a class marker
never overwrites an existing tag entry, a class-less one always does), and a
host node carrying that tag and no class resolves to that descriptor. -/
theorem register_tag_default_amended :
    ∀ (ds : List RegDef) (reg : Registry) (T : String) (dL : RegDef),
    (∀ d ∈ ds, d.keyName = none ∧ d.tagName = some T ∧
      ¬(d.blotName = none ∧ d.attrName = none) ∧ d.blotName ≠ some "abstract") →
    lastClassless ds = some dL →
    ∃ reg', reg.registerAll ds = .ok reg' ∧
      mapGet reg'.tags (jsToUpper T) = some dL ∧
      (Registry.scopeMatches Scope.ANY dL.scope = true →
        reg'.queryNode (DomNode.elem (jsToUpper T) [] []) Scope.ANY = some dL) := by
  intro ds
  induction ds with
  | nil => intro reg T dL _ hL; simp [lastClassless] at hL
  | cons d ds ih =>
    intro reg T dL hall hL
    obtain ⟨hk, ht, hn, ha⟩ := hall d (List.mem_cons_self ..)
    by_cases hfilter : ds.filter (fun d => d.className = none) = []
    · -- no class-less definition after `d`: `d` itself is the last class-less one
      have hdc : d.className = none := by
        by_cases hdc : d.className = none
        · exact hdc
        · rw [lastClassless, List.filter_cons, if_neg (by simpa using hdc), hfilter] at hL
          simp [List.getLast?] at hL
      have hdL : d = dL := by
        rw [lastClassless, List.filter_cons, if_pos (by simpa using hdc), hfilter] at hL
        simpa [List.getLast?] using hL
      subst hdL
      obtain ⟨bn, an, kn, cn, tn, sc⟩ := d
      simp only at hk ht hn ha hdc
      subst hk ht hdc
      obtain ⟨r1, hr1, htags⟩ := register_classless_tags reg bn an T sc hn ha
      have hall' : ∀ d' ∈ ds, d'.keyName = none ∧ d'.tagName = some T ∧
          d'.className ≠ none ∧ ¬(d'.blotName = none ∧ d'.attrName = none) ∧
          d'.blotName ≠ some "abstract" := by
        intro d' hd'
        obtain ⟨h1, h2, h3, h4⟩ := hall d' (List.mem_cons_of_mem _ hd')
        refine ⟨h1, h2, ?_, h3, h4⟩
        intro hceq
        have := List.filter_eq_nil_iff.mp hfilter d' hd'
        simp [hceq] at this
      obtain ⟨reg', hreg', htags'⟩ := registerAll_tags_preserved T ds r1 _ hall' htags
      refine ⟨reg', ?_, htags', fun hs => queryNode_tags reg' _ _ htags' hs⟩
      rw [Registry.registerAll, hr1]
      exact hreg'
    · -- a later class-less definition exists: it decides the default
      have hL' : lastClassless ds = some dL := by
        rw [lastClassless, List.filter_cons] at hL
        by_cases hdc : d.className = none
        · rw [if_pos (by simpa using hdc)] at hL
          rw [lastClassless]
          rcases hfe : ds.filter (fun d => d.className = none) with _ | ⟨y, ys⟩
          · exact absurd hfe hfilter
          · rw [hfe] at hL
            rw [List.getLast?_cons_cons] at hL
            rw [hfe]
            exact hL
        · rw [if_neg (by simpa using hdc)] at hL
          exact hL
      obtain ⟨r1, hr1⟩ := register_ok reg d hk hn ha
      obtain ⟨reg', hreg', htags', hq⟩ :=
        ih r1 T dL (fun d' hd' => hall d' (List.mem_cons_of_mem _ hd')) hL'
      refine ⟨reg', ?_, htags', hq⟩
      rw [Registry.registerAll, hr1]
      exact hreg'

/-- Witness for the amended C2 at the concrete registration sequence
`[alpha, beta]`: the later class-less `beta` is the tag default and is what a
classless host node with tag `X` resolves to. -/
theorem register_tag_default_amended_witness :
    (emptyRegistry.registerAll [defAlpha, defBeta]).toOption.bind
        (fun r => r.queryNode (DomNode.elem (jsToUpper "X") [] []) Scope.ANY)
      = some defBeta := by
  obtain ⟨reg', h1, h2, h3⟩ :=
    register_tag_default_amended [defAlpha, defBeta] emptyRegistry "X" defBeta
      (by decide) (by rfl)
  rw [h1]
  simp only [Except.toOption, Option.bind]
  exact h3 (by decide)

/-! ## Attributor (C3)

Embedded from the `Attributor` base class.  The host node is reduced to its
attribute map; a JS value handed to `add`/`canAdd` is either a string or an
opaque non-string value (`canAdd` branches on `typeof`).  `setAttribute`
coerces to a string, modelled by `JsValue.asString`. -/

inductive JsValue where
  | str (s : String)
  | other (tag : Nat)
deriving DecidableEq

def JsValue.asString : JsValue → String
  | .str s => s
  | .other n => Nat.repr n

structure AttrNode where
  attrs : List (String × String)
deriving DecidableEq

def AttrNode.getAttribute (n : AttrNode) (k : String) : Option String :=
  (n.attrs.find? (fun p => p.1 == k)).map (fun p => p.2)

def AttrNode.setAttribute (n : AttrNode) (k v : String) : AttrNode :=
  ⟨(k, v) :: n.attrs⟩

def AttrNode.removeAttribute (n : AttrNode) (k : String) : AttrNode :=
  ⟨n.attrs.filter (fun p => ¬(p.1 = k))⟩

structure Attributor where
  attrName : String
  keyName : String
  scope : Nat
  whitelist : Option (List JsValue)
deriving DecidableEq

/-- The single-quote character, written by code point to keep the source
plain. -/
def singleQuote : Char := Char.ofNat 39

/-- `value.replace(/["']/g, "")`: every double- or single-quote character is
removed, wherever it occurs. -/
def stripQuoteChars (s : String) : String :=
  ⟨s.data.filter (fun c => ¬(c = '"' ∨ c = singleQuote))⟩

/-- `canAdd(node, value)`:
`null == this.whitelist || ("string" == typeof value`
`  ? this.whitelist.indexOf(value.replace(/["']/g, "")) > -1`
`  : this.whitelist.indexOf(value) > -1)`. -/
def Attributor.canAdd (a : Attributor) (_node : AttrNode) (v : JsValue) : Bool :=
  match a.whitelist with
  | none => true
  | some wl =>
    match v with
    | .str s => wl.contains (.str (stripQuoteChars s))
    | v => wl.contains v

/-- `add(node, value)`: `return !!this.canAdd(node, value) &&`
`(node.setAttribute(this.keyName, value), true)`; the pair is the returned
boolean together with the (possibly unchanged) node. -/
def Attributor.add (a : Attributor) (node : AttrNode) (v : JsValue) : Bool × AttrNode :=
  if a.canAdd node v then (true, node.setAttribute a.keyName v.asString)
  else (false, node)

/-- `remove(node)`: `node.removeAttribute(this.keyName)`. -/
def Attributor.remove (a : Attributor) (node : AttrNode) : AttrNode :=
  node.removeAttribute a.keyName

/-- `value(node)`: `const e = node.getAttribute(this.keyName);`
`return this.canAdd(node, e) && e ? e : "";`  (a `null` or empty attribute is
falsy, so those cases yield the empty string whatever `canAdd` says). -/
def Attributor.value (a : Attributor) (node : AttrNode) : String :=
  match node.getAttribute a.keyName with
  | none => ""
  | some e => if a.canAdd node (.str e) ∧ e ≠ "" then e else ""

/-- What C3 asserts of `canAdd`, taken at its word: only the *surrounding*
quote characters of the value are stripped before the whitelist comparison. -/
def stripSurroundingQuotes (s : String) : String :=
  ⟨((s.data.dropWhile (fun c => c = '"' ∨ c = singleQuote)).reverse.dropWhile
      (fun c => c = '"' ∨ c = singleQuote)).reverse⟩

def Attributor.canAddClaimed (a : Attributor) (_node : AttrNode) (v : JsValue) : Bool :=
  match a.whitelist with
  | none => true
  | some wl =>
    match v with
    | .str s => wl.contains (.str (stripSurroundingQuotes s))
    | v => wl.contains v

/-- **C3 counterexample.**  With whitelist `["ab"]` and the value `a"b`
(a quote in the middle, none surrounding), the code accepts — it removes
*every* quote character, yielding `ab` — while the claim's
surrounding-quotes-only comparison rejects. -/
theorem canAdd_strip_counterexample :
    Attributor.canAdd ⟨"align", "align", 13, some [.str "ab"]⟩ ⟨[]⟩ (.str "a\"b") = true ∧
    Attributor.canAddClaimed ⟨"align", "align", 13, some [.str "ab"]⟩ ⟨[]⟩ (.str "a\"b")
      = false := by
  constructor
  · rfl
  · rfl

/-- **C3 amended.**  For every attributor with a declared whitelist:
`add(node, value)` returns `false` and writes nothing unless `canAdd` passes
(and writes the encoded value when it does); `canAdd` compares a string value
with *all* its double- and single-quote characters removed against the
whitelist; and `value(node)` returns the stored attribute value only when
that value is nonempty and currently passes `canAdd`, otherwise the empty
string. -/
theorem attributor_whitelist_amended (a : Attributor) (wl : List JsValue)
    (hwl : a.whitelist = some wl) :
    (∀ (node : AttrNode) (v : JsValue), a.canAdd node v = false →
      a.add node v = (false, node)) ∧
    (∀ (node : AttrNode) (v : JsValue), a.canAdd node v = true →
      a.add node v = (true, node.setAttribute a.keyName v.asString)) ∧
    (∀ (node : AttrNode) (s : String),
      a.canAdd node (.str s) = true ↔ JsValue.str (stripQuoteChars s) ∈ wl) ∧
    (∀ node : AttrNode,
      (∃ e, node.getAttribute a.keyName = some e ∧ a.canAdd node (.str e) = true ∧
        e ≠ "" ∧ a.value node = e) ∨ a.value node = "") := by
  refine ⟨?_, ?_, ?_, ?_⟩
  · intro node v h
    simp [Attributor.add, h]
  · intro node v h
    simp [Attributor.add, h]
  · intro node s
    simp [Attributor.canAdd, hwl]
  · intro node
    rcases hga : node.getAttribute a.keyName with _ | e
    · refine Or.inr ?_
      rw [Attributor.value, hga]
    · by_cases hcond : a.canAdd node (.str e) = true ∧ e ≠ ""
      · refine Or.inl ⟨e, hga ▸ rfl, hcond.1, hcond.2, ?_⟩
        rw [Attributor.value, hga]
        exact if_pos hcond
      · refine Or.inr ?_
        rw [Attributor.value, hga]
        exact if_neg hcond

/-- Witness for the amended C3 at a concrete attributor with whitelist
`["ab"]`: a failing `add` leaves the node untouched, a passing one writes,
and `value` of an absent attribute is empty. -/
theorem attributor_whitelist_amended_witness :
    Attributor.add ⟨"align", "align", 13, some [.str "ab"]⟩ ⟨[]⟩ (.str "zz")
      = (false, ⟨[]⟩) ∧
    Attributor.add ⟨"align", "align", 13, some [.str "ab"]⟩ ⟨[]⟩ (.str "ab")
      = (true, ⟨[("align", "ab")]⟩) :=
  ⟨(attributor_whitelist_amended ⟨"align", "align", 13, some [.str "ab"]⟩
      [.str "ab"] rfl).1 ⟨[]⟩ (.str "zz") (by rfl),
   (attributor_whitelist_amended ⟨"align", "align", 13, some [.str "ab"]⟩
      [.str "ab"] rfl).2.1 ⟨[]⟩ (.str "ab") (by rfl)⟩

/-! ## The blot tree (C4, C5, C7)

A blot is embedded by its content structure: a text leaf (its character
data), an embed leaf (atomic, length 1 — `ShadowBlot.length()`), or a parent
holding an ordered list of children.  The parent's variant information that
the studied operations consult is its kind: whether it is the scroll (whose
`deleteAt` is overridden) and whether its statics declare a `defaultChild`.
In-place tree surgery becomes functions from the affected node (or children
list) to the rewritten one. -/

structure ParentKind where
  isScroll : Bool
  hasDefaultChild : Bool
deriving DecidableEq

inductive Blot where
  | text (s : List Char)
  | embed (name : String)
  | parent (k : ParentKind) (cs : List Blot)

/-! `length()`: text = character count, leaf/embed = 1, parent =
`children.reduce((acc, child) => acc + child.length(), 0)`. -/
mutual
def Blot.blen : Blot → Nat
  | .text s => s.length
  | .embed _ => 1
  | .parent _ cs => blenList cs
def blenList : List Blot → Nat
  | [] => 0
  | c :: rest => c.blen + blenList rest
end

theorem blen_parent (k : ParentKind) (cs : List Blot) :
    (Blot.parent k cs).blen = blenList cs := rfl

theorem blenList_cons (c : Blot) (rest : List Blot) :
    blenList (c :: rest) = c.blen + blenList rest := rfl

/-- The outcome of `split(offset, force)` on a blot sitting among siblings:
`self` — returned `this`, no structural change; `next` — returned
`this.next`, no structural change; `clone l r` — the blot was replaced by
its left part `l`, a clone `r` holding the right-hand content was inserted
immediately after it, and `r` was returned. -/
inductive SplitRes where
  | self
  | next
  | clone (l r : Blot)

/-! `ParentBlot.split` clones the node, inserts the clone after itself, and
then `this.children.forEachAt(offset, this.length(), (child, at, len) => {`
`const n = child.split(at, force); if (null != n) clone.appendChild(n); })`.
The iterator advances before the visitor mutates, so the visit order is the
original child sequence: the children wholly before the offset stay, the
child containing the offset is split in place, every later child is visited
at offset 0.  `splitVisit` gives, for one visited child, the pair (what
remains of it in the original parent, what `appendChild` moves into the
clone); the branches returning `this.next` (offset = child length, nonzero)
are unreachable from `forEachAt` — `find` always lands strictly inside a
child — and move nothing. -/

mutual
def splitVisit (force : Bool) : Blot → Nat → Option Blot × Option Blot
  | .text s, o =>
    if ¬force ∧ o = 0 then (none, some (.text s))
    else if ¬force ∧ o = s.length then (some (.text s), none)
    else (some (.text (s.take o)), some (.text (s.drop o)))
  | .embed n, o =>
    if o = 0 then (none, some (.embed n)) else (some (.embed n), none)
  | .parent k cs, o =>
    if ¬force ∧ o = 0 then (none, some (.parent k cs))
    else if ¬force ∧ o = blenList cs then (some (.parent k cs), none)
    else
      let p := splitChildrenAux force cs o
      (some (.parent k p.1), some (.parent k p.2))

def splitChildrenAux (force : Bool) : List Blot → Nat → List Blot × List Blot
  | [], _ => ([], [])
  | c :: rest, t =>
    if t < c.blen then
      let v := splitVisit force c t
      let vs := splitRest force rest
      (v.1.toList ++ vs.1, v.2.toList ++ vs.2)
    else
      let p := splitChildrenAux force rest (t - c.blen)
      (c :: p.1, p.2)

def splitRest (force : Bool) : List Blot → List Blot × List Blot
  | [] => ([], [])
  | c :: rest =>
    let v := splitVisit force c 0
    let vs := splitRest force rest
    (v.1.toList ++ vs.1, v.2.toList ++ vs.2)
end

/-- `split(offset, force)` dispatched over the blot variants:
`ShadowBlot.split` (inherited by leaf/embed blots) is
`return 0 === offset ? this : this.next` — the force flag is ignored;
`TextBlot.split` and `ParentBlot.split` first run the no-force early returns
and otherwise produce the right-hand clone. -/
def Blot.split (b : Blot) (t : Nat) (force : Bool) : SplitRes :=
  match b with
  | .text s =>
    if ¬force ∧ t = 0 then .self
    else if ¬force ∧ t = s.length then .next
    else .clone (.text (s.take t)) (.text (s.drop t))
  | .embed _ => if t = 0 then .self else .next
  | .parent k cs =>
    if ¬force ∧ t = 0 then .self
    else if ¬force ∧ t = blenList cs then .next
    else
      let p := splitChildrenAux force cs t
      .clone (.parent k p.1) (.parent k p.2)

/-! ### deleteAt (C5)

`TextBlot.deleteAt`: splice the character data.
`ShadowBlot.deleteAt` (embeds): `this.isolate(offset, length).remove()` —
for the in-range call (offset 0 within a length-1 leaf) the leaf is removed;
the `offset ≥ 1` branch is unreachable from `forEachAt` delegation.
`ParentBlot.deleteAt`: `if (0 === offset && length === this.length())`
`return this.remove();` else delegate over `forEachAt`.
`ScrollBlot.deleteAt` overrides the full-range case with
`this.children.forEach((child) => child.remove())` — the scroll stays with
no children.  `none` encodes removal from the tree. -/

mutual
def Blot.deleteAt : Blot → Nat → Nat → Option Blot
  | .text s, t, e => some (.text (s.take t ++ s.drop (t + e)))
  | .embed n, t, _ => if t = 0 then none else some (.embed n)
  | .parent k cs, t, e =>
    if k.isScroll then
      if t = 0 ∧ e = blenList cs then some (.parent k [])
      else some (.parent k (deleteAtChildren cs t e))
    else
      if t = 0 ∧ e = blenList cs then none
      else some (.parent k (deleteAtChildren cs t e))

/-- `forEachAt(offset, length, (child, at, len) => child.deleteAt(at, len))`:
the `length <= 0` guard, then the walk to the first overlapped child and the
visits with clipped sub-ranges. -/
def deleteAtChildren (cs : List Blot) (t e : Nat) : List Blot :=
  if e = 0 then cs else delWalk cs t e

def delWalk : List Blot → Nat → Nat → List Blot
  | [], _, _ => []
  | c :: rest, t, e =>
    if c.blen ≤ t then c :: delWalk rest (t - c.blen) e
    else (c.deleteAt t (min e (c.blen - t))).toList ++ delRest rest (e - (c.blen - t))

def delRest : List Blot → Nat → List Blot
  | [], _ => []
  | c :: rest, rem =>
    if rem = 0 then c :: rest
    else (c.deleteAt 0 (min c.blen rem)).toList ++ delRest rest (rem - c.blen)
end

/-- The freshly created default child (`scroll.create(defaultChild.blotName)`
builds an empty parent blot — for the scroll the declared default is the
`block` parent). -/
def defaultChildBlot : Blot := .parent ⟨false, false⟩ []

/-- The tail of `ParentBlot.optimize`:
`if (0 === this.children.length) { if (null != this.statics.defaultChild) {`
`const child = this.scroll.create(this.statics.defaultChild.blotName);`
`this.appendChild(child); } else this.remove(); }`. -/
def Blot.optimizeEmptyCheck : Blot → Option Blot
  | .parent k cs =>
    if cs.isEmpty then
      if k.hasDefaultChild then some (.parent k [defaultChildBlot]) else none
    else some (.parent k cs)
  | b => some b

/-! ### insertAt (C7)

`ParentBlot.insertAt`: `const [child, offset] = this.children.find(index);`
`if (child) child.insertAt(offset, value, def); else {`
`const blot = def == null ? scroll.create("text", value)`
`: scroll.create(value, def); this.appendChild(blot); }`.
Content is either plain text (no definition argument) or a named blot with a
definition value; `createContent` is the blot `scroll.create` builds for
it (the definition value does not influence the tree shape retained by the
model). -/

inductive Content where
  | plain (s : List Char)
  | emb (name : String) (v : Nat)

def createContent : Content → Blot
  | .plain s => .text s
  | .emb n _ => .embed n

mutual
def insertAtChildren : List Blot → Nat → Content → List Blot
  | [], _, c => [createContent c]
  | b :: rest, t, c =>
    if t < b.blen then insertIntoChild b t c ++ rest
    else b :: insertAtChildren rest (t - b.blen) c

/-- A child's own `insertAt`: `TextBlot.insertAt` splices plain text into the
character data and defers to `ShadowBlot.insertAt` otherwise, which creates
the blot, splits the receiver at the offset and inserts the new blot before
the split-off part (or at the end); `ShadowBlot.insertAt` likewise for
embeds; parents recurse. -/
def insertIntoChild : Blot → Nat → Content → List Blot
  | .text s, t, .plain u => [.text (s.take t ++ u ++ s.drop t)]
  | .text s, t, .emb n v =>
    if t = 0 then [createContent (.emb n v), .text s]
    else if t = s.length then [.text s, createContent (.emb n v)]
    else [.text (s.take t), createContent (.emb n v), .text (s.drop t)]
  | .embed m, t, c =>
    if t = 0 then [createContent c, .embed m] else [.embed m, createContent c]
  | .parent k cs, t, c => [.parent k (insertAtChildren cs t c)]
end

/-- `parent.insertAt(index, content)` at the whole-parent level. -/
def Blot.insertAtParent (k : ParentKind) (cs : List Blot) (t : Nat) (c : Content) : Blot :=
  .parent k (insertAtChildren cs t c)

/-- `parent.appendChild(scroll.create(content))`:
`insertBefore(blot, undefined)` links the new blot after the current tail. -/
def Blot.appendCreated (k : ParentKind) (cs : List Blot) (c : Content) : Blot :=
  .parent k (cs ++ [createContent c])

/-- **C5.**  Deleting a parent's whole range, followed by the optimize pass's
empty-parent check, either removes the parent from the tree or — when its
variant declares a default child — leaves it in place holding exactly one
freshly created default child. -/
theorem deleteAll_removes_or_default (k : ParentKind) (cs : List Blot) :
    ((Blot.parent k cs).deleteAt 0 ((Blot.parent k cs).blen)).bind Blot.optimizeEmptyCheck
      = none ∨
    (k.hasDefaultChild = true ∧
      ((Blot.parent k cs).deleteAt 0 ((Blot.parent k cs).blen)).bind Blot.optimizeEmptyCheck
        = some (.parent k [defaultChildBlot])) := by
  obtain ⟨is, hd⟩ := k
  rcases is <;> rcases hd
  · left
    simp [Blot.deleteAt, Blot.blen]
  · left
    simp [Blot.deleteAt, Blot.blen]
  · left
    simp [Blot.deleteAt, Blot.blen, Blot.optimizeEmptyCheck]
  · right
    refine ⟨rfl, ?_⟩
    simp [Blot.deleteAt, Blot.blen, Blot.optimizeEmptyCheck]

/-- **C7.**  Inserting at an offset equal to the parent's total length is
`append`: the created blot becomes the parent's last child and nothing else
changes. -/
theorem insertAt_length_eq_append (k : ParentKind) (cs : List Blot) (c : Content) :
    Blot.insertAtParent k cs (blenList cs) c = Blot.appendCreated k cs c := by
  rw [Blot.insertAtParent, Blot.appendCreated]
  have h : ∀ ds : List Blot, insertAtChildren ds (blenList ds) c = ds ++ [createContent c] := by
    intro ds
    induction ds with
    | nil => rfl
    | cons b rest ih =>
      rw [blenList_cons]
      simp only [insertAtChildren]
      rw [if_neg (by omega), Nat.add_sub_cancel_left, ih]
      simp
  rw [h cs]

theorem blenList_append (a b : List Blot) :
    blenList (a ++ b) = blenList a + blenList b := by
  induction a with
  | nil => simp [blenList]
  | cons c rest ih =>
    simp only [List.cons_append, blenList_cons, ih]
    omega

/-! ### The split bookkeeping: the left part keeps exactly the offset's worth
of content, the clone receives the rest. -/

mutual
theorem splitVisit_blen : ∀ (force : Bool) (c : Blot) (o : Nat), o < c.blen ∨ o = 0 →
    blenList (splitVisit force c o).1.toList = o ∧
    blenList (splitVisit force c o).2.toList = c.blen - o
  | force, .text s, o, h => by
    have hlen : o ≤ s.length := by
      rcases h with hlt | hz
      · exact Nat.le_of_lt hlt
      · omega
    simp only [splitVisit]
    by_cases h0 : ¬force ∧ o = 0
    · rw [if_pos h0]
      simp [blenList, Blot.blen, h0.2]
    · rw [if_neg h0]
      by_cases h1 : ¬force ∧ o = s.length
      · exfalso
        rcases h with hlt | hz
        · have := h1.2
          simp only [Blot.blen] at hlt
          omega
        · exact h0 ⟨h1.1, hz⟩
      · rw [if_neg h1]
        constructor
        · simp only [Option.toList, blenList, Blot.blen, List.length_take]
          omega
        · simp only [Option.toList, blenList, Blot.blen, List.length_drop]
          omega
  | _force, .embed n, o, h => by
    have ho : o = 0 := by
      rcases h with hlt | hz
      · simp only [Blot.blen] at hlt
        omega
      · exact hz
    subst ho
    simp [splitVisit, blenList, Blot.blen]
  | force, .parent k cs, o, h => by
    simp only [splitVisit]
    by_cases h0 : ¬force ∧ o = 0
    · rw [if_pos h0]
      simp [blenList, Blot.blen, h0.2]
    · rw [if_neg h0]
      by_cases h1 : ¬force ∧ o = blenList cs
      · exfalso
        rcases h with hlt | hz
        · have := h1.2
          simp only [Blot.blen] at hlt
          omega
        · exact h0 ⟨h1.1, hz⟩
      · rw [if_neg h1]
        have hle : o ≤ blenList cs := by
          rcases h with hlt | hz
          · simpa only [Blot.blen] using Nat.le_of_lt hlt
          · omega
        have haux := splitChildrenAux_blen force cs o hle
        constructor
        · simp only [Option.toList, blenList, Blot.blen, haux.1]
          omega
        · simp only [Option.toList, blenList, Blot.blen, haux.2]
          omega

theorem splitChildrenAux_blen : ∀ (force : Bool) (cs : List Blot) (t : Nat),
    t ≤ blenList cs →
    blenList (splitChildrenAux force cs t).1 = t ∧
    blenList (splitChildrenAux force cs t).2 = blenList cs - t
  | force, [], t, h => by
    have ht : t = 0 := by
      simp only [blenList] at h
      omega
    subst ht
    simp [splitChildrenAux, blenList]
  | force, c :: rest, t, h => by
    simp only [splitChildrenAux]
    by_cases hlt : t < c.blen
    · rw [if_pos hlt]
      have hv := splitVisit_blen force c t (Or.inl hlt)
      have hr := splitRest_blen force rest
      constructor
      · simp only [blenList_append, hv.1, hr.1]
        omega
      · simp only [blenList_append, hv.2, hr.2, blenList_cons]
        omega
    · rw [if_neg hlt]
      have h2 : t - c.blen ≤ blenList rest := by
        rw [blenList_cons] at h
        omega
      have ih := splitChildrenAux_blen force rest (t - c.blen) h2
      constructor
      · simp only [blenList_cons, ih.1]
        omega
      · simp only [ih.2, blenList_cons]
        omega

theorem splitRest_blen : ∀ (force : Bool) (cs : List Blot),
    blenList (splitRest force cs).1 = 0 ∧ blenList (splitRest force cs).2 = blenList cs
  | force, [] => by simp [splitRest, blenList]
  | force, c :: rest => by
    simp only [splitRest]
    have hv := splitVisit_blen force c 0 (Or.inr rfl)
    have hr := splitRest_blen force rest
    constructor
    · simp only [blenList_append, hv.1, hr.1]
    · simp only [blenList_append, hv.2, hr.2, blenList_cons]
      omega
end

def Blot.isEmbedLeaf : Blot → Bool
  | .embed _ => true
  | _ => false

/-- **C4 counterexample.**  A forced split of an embed leaf at offset 0 (and
at its full length 1) returns `this` (resp. `this.next`) and creates no
clone: `ShadowBlot.split` reads `return 0 === index ? this : this.next`,
ignoring the force flag, so "force … still duplicates the node" fails for
leaf blots. -/
theorem split_force_ignored_counterexample :
    Blot.split (.embed "image-grid") 0 true = SplitRes.self ∧
    Blot.split (.embed "image-grid") 1 true = SplitRes.next :=
  ⟨rfl, rfl⟩

/-- **C4 amended.**  For every blot `b` and offset `k`: with force unset,
`split` returns `b` itself at `k = 0`, the next sibling at a nonzero
`k = b.length()`, and otherwise divides the content at `k` into a left part
of length `k` kept in place and a new right-hand sibling of length
`b.length() - k` inserted after `b`; with force set, text and parent blots
still produce the clone even at offset 0 or full length, but embed/leaf
blots ignore the force flag entirely and never duplicate. -/
theorem split_amended (b : Blot) (k : Nat) :
    (Blot.split b 0 false = .self) ∧
    (0 < k → k = b.blen → Blot.split b k false = .next) ∧
    (0 < k → k < b.blen →
      ∃ l r, Blot.split b k false = .clone l r ∧ l.blen = k ∧ r.blen = b.blen - k) ∧
    (b.isEmbedLeaf = true → ∀ f : Bool, Blot.split b k f = Blot.split b k false) ∧
    (b.isEmbedLeaf = false → k ≤ b.blen →
      ∃ l r, Blot.split b k true = .clone l r ∧ l.blen = k ∧ r.blen = b.blen - k) := by
  rcases b with s | n | ⟨pk, cs⟩
  · refine ⟨rfl, ?_, ?_, ?_, ?_⟩
    · intro hk hlen
      simp only [Blot.split]
      rw [if_neg (by simp; omega), if_pos (by simp [Blot.blen] at hlen; simp [hlen])]
    · intro hk hlen
      simp only [Blot.blen] at hlen
      simp only [Blot.split]
      rw [if_neg (by simp; omega), if_neg (by simp; omega)]
      refine ⟨_, _, rfl, ?_, ?_⟩
      · simp only [Blot.blen, List.length_take]
        omega
      · simp only [Blot.blen, List.length_drop]
    · intro hembed
      simp [Blot.isEmbedLeaf] at hembed
    · intro _ hle
      simp only [Blot.blen] at hle
      simp only [Blot.split]
      rw [if_neg (by simp), if_neg (by simp)]
      refine ⟨_, _, rfl, ?_, ?_⟩
      · simp only [Blot.blen, List.length_take]
        omega
      · simp only [Blot.blen, List.length_drop]
  · refine ⟨rfl, ?_, ?_, ?_, ?_⟩
    · intro hk hlen
      simp only [Blot.split]
      rw [if_neg (by omega)]
    · intro hk hlen
      simp only [Blot.blen] at hlen
      omega
    · intro _ f
      rfl
    · intro hembed
      simp [Blot.isEmbedLeaf] at hembed
  · refine ⟨rfl, ?_, ?_, ?_, ?_⟩
    · intro hk hlen
      simp only [Blot.blen] at hlen
      simp only [Blot.split]
      rw [if_neg (by simp; omega), if_pos (by simp [hlen])]
    · intro hk hlen
      simp only [Blot.blen] at hlen
      have haux := splitChildrenAux_blen false cs k (Nat.le_of_lt hlen)
      simp only [Blot.split]
      rw [if_neg (by simp; omega), if_neg (by simp; omega)]
      exact ⟨_, _, rfl, haux.1, haux.2⟩
    · intro hembed
      simp [Blot.isEmbedLeaf] at hembed
    · intro _ hle
      simp only [Blot.blen] at hle
      have haux := splitChildrenAux_blen true cs k hle
      simp only [Blot.split]
      rw [if_neg (by simp), if_neg (by simp)]
      exact ⟨_, _, rfl, haux.1, haux.2⟩

/-- A small concrete tree for the C4 witness. -/
def splitWitnessBlot : Blot := .parent ⟨false, false⟩ [.text ['a', 'b'], .embed "img"]

/-- Witness for the amended C4: splitting the concrete parent (length 3) at
offset 1 produces a clone pair of lengths 1 and 2. -/
theorem split_amended_witness :
    ∃ l r, Blot.split splitWitnessBlot 1 false = .clone l r ∧
      l.blen = 1 ∧ r.blen = splitWitnessBlot.blen - 1 :=
  (split_amended splitWitnessBlot 1).2.2.1 (by decide) (by decide)

/-! ## C9: recovery of unresolvable host nodes (`makeAttachedBlot`, the
source's function `d`)

`function d(t, e) { let s = e.find(t);`
`  if (null == s) try { s = e.create(t) } catch (i) {`
`    s = e.create(Scope.INLINE);`
`    Array.from(t.childNodes).forEach((n) => s.domNode.appendChild(n));`
`    t.parentNode && t.parentNode.replaceChild(s.domNode, t);`
`    s.attach(); }`
`  return s; }`

A blot here is its resolved definition plus the host node it owns.  The
identity side table consulted by `e.find` is passed as a lookup function.
The `replaceChild` step (swapping the wrapper into the host parent) and the
WeakMap registration are outside the returned value and are not modelled. -/

structure MBlot where
  rdef : RegDef
  dom : DomNode

def domChildren : DomNode → List DomNode
  | .elem _ _ cs => cs
  | .textNode _ => []

def domAppendChildren : DomNode → List DomNode → DomNode
  | .elem tag cls cs, new => .elem tag cls (cs ++ new)
  | .textNode s, _ => .textNode s

def classListOf (d : RegDef) : List String :=
  match d.className with
  | some c => [c]
  | none => []

/-- `Registry.create` on a concrete host node: resolve a definition via
`query` (default mask ANY) — `UnableToCreate` if none — and construct the
blot on that very node (`e instanceof Node ? e : ...`). -/
def Registry.createFromNode (reg : Registry) (n : DomNode) : Except ParchmentError MBlot :=
  match reg.queryNode n Scope.ANY with
  | none => .error .unableToCreate
  | some d => .ok ⟨d, n⟩

/-- `Registry.query` on a scope number:
`t & Scope.LEVEL & Scope.BLOCK ? s = types.block`
`: t & Scope.LEVEL & Scope.INLINE && (s = types.inline)`, then the common
scope filter. -/
def Registry.queryScopeNum (reg : Registry) (t : Nat) (mask : Nat) : Option RegDef :=
  let s : Option RegDef :=
    if t &&& Scope.LEVEL &&& Scope.BLOCK ≠ 0 then mapGet reg.types "block"
    else if t &&& Scope.LEVEL &&& Scope.INLINE ≠ 0 then mapGet reg.types "inline"
    else none
  match s with
  | none => none
  | some d => if Registry.scopeMatches mask d.scope then some d else none

/-- `ShadowBlot.create()`: `if (null == this.tagName) throw ...;`
`document.createElement(this.tagName)` plus the static class token (the
tag was uppercased at registration; the array-of-tags variant is not used by
the inline/fallback path and is not modelled). -/
def shadowCreate (d : RegDef) : Except ParchmentError DomNode :=
  match d.tagName with
  | none => .error .blotMissingTagName
  | some tag => .ok (.elem (jsToUpper tag) (classListOf d) [])

/-- `Registry.create` on a scope number: resolve, then build a fresh host
node for the definition. -/
def Registry.createFromScope (reg : Registry) (t : Nat) : Except ParchmentError MBlot :=
  match reg.queryScopeNum t Scope.ANY with
  | none => .error .unableToCreate
  | some d =>
    match shadowCreate d with
    | .ok node => .ok ⟨d, node⟩
    | .error err => .error err

def makeAttachedBlot (reg : Registry) (found : DomNode → Option MBlot)
    (t : DomNode) : Except ParchmentError MBlot :=
  match found t with
  | some s => .ok s
  | none =>
    match reg.createFromNode t with
    | .ok s => .ok s
    | .error _ =>
      match reg.createFromScope Scope.INLINE with
      | .ok w => .ok ⟨w.rdef, domAppendChildren w.dom (domChildren t)⟩
      | .error err => .error err

/-- **C9.**  For every host node with no identity-table entry and no
resolvable descriptor, `makeAttachedBlot` recovers locally: it returns
normally (no error propagates) with a wrapper built from the registered
generic `inline` definition whose host element has adopted *all* of the
unknown node's children. -/
theorem makeAttachedBlot_fallback (reg : Registry) (found : DomNode → Option MBlot)
    (t : DomNode) (idef : RegDef) (tag : String)
    (hfound : found t = none)
    (hquery : reg.queryNode t Scope.ANY = none)
    (hinline : mapGet reg.types "inline" = some idef)
    (hscope : Registry.scopeMatches Scope.ANY idef.scope = true)
    (htag : idef.tagName = some tag) :
    makeAttachedBlot reg found t
      = .ok ⟨idef, .elem (jsToUpper tag) (classListOf idef) (domChildren t)⟩ := by
  rw [makeAttachedBlot, hfound]
  rw [show reg.createFromNode t = .error .unableToCreate from by
    rw [Registry.createFromNode, hquery]]
  rw [show reg.createFromScope Scope.INLINE
      = .ok ⟨idef, .elem (jsToUpper tag) (classListOf idef) []⟩ from by
    simp only [Registry.createFromScope,
      show reg.queryScopeNum Scope.INLINE Scope.ANY = some idef from by
        rw [Registry.queryScopeNum]
        rw [if_neg (by decide), if_pos (by decide), hinline]
        simp [hscope],
      shadowCreate, htag]]
  rcases t with ⟨tg, cls, cs⟩ | s
  · rfl
  · rfl

def inlineDef : RegDef := ⟨some "inline", none, none, none, some "SPAN", Scope.INLINE_BLOT⟩

def fallbackWitnessReg : Registry :=
  ((emptyRegistry.register inlineDef).toOption).getD emptyRegistry

/-- Witness for C9: with only the `inline` definition registered, an unknown
`FOO` element with a text child is wrapped in a fresh `SPAN` inline blot
that adopts the child. -/
theorem makeAttachedBlot_fallback_witness :
    makeAttachedBlot fallbackWitnessReg (fun _ => none)
        (.elem "FOO" [] [.textNode ['h', 'i']])
      = .ok ⟨inlineDef, .elem (jsToUpper "SPAN") (classListOf inlineDef)
          (domChildren (.elem "FOO" [] [.textNode ['h', 'i']]))⟩ :=
  makeAttachedBlot_fallback fallbackWitnessReg (fun _ => none)
    (.elem "FOO" [] [.textNode ['h', 'i']]) inlineDef "SPAN"
    rfl rfl rfl (by decide) rfl

/-! ## C8: JSON and the image-grid create/value round trip

`ImageGrid.create` stores `JSON.stringify(data)` in the host node's
`image-grid-data` attribute and `ImageGrid.value` reads it back through
`JSON.parse`.  The JSON value space is embedded with numbers as naturals
(IEEE floats are outside a shallow embedding; the grid's ratio values are
modelled as integers) and strings escaped for the quote and backslash
characters (the model writes other characters raw and reads them back raw,
so the stringify/parse pair is exercised on the same fragment the attribute
round trip uses; `JSON.stringify` emits no whitespace, and the parser models
that whitespace-free output grammar). -/

inductive Json where
  | null
  | bool (b : Bool)
  | num (n : Nat)
  | str (s : String)
  | arr (xs : List Json)
  | obj (kvs : List (String × Json))

def openBrace : Char := Char.ofNat 123

def closeBrace : Char := Char.ofNat 125

def backslash : Char := '\\'

/-- Decimal digits of `n`, most significant first, onto `acc`; the fuel
argument (any bound above `n`) keeps the division recursion structural so
the definition computes by kernel reduction. -/
def natCharsAux : Nat → Nat → List Char → List Char
  | 0, _, acc => acc
  | fuel + 1, n, acc =>
    if n < 10 then Char.ofNat (48 + n) :: acc
    else natCharsAux fuel (n / 10) (Char.ofNat (48 + n % 10) :: acc)

def natChars (n : Nat) : List Char := natCharsAux (n + 1) n []

/-- One character of string content, escaped: quote and backslash get a
backslash prefix (`JSON.stringify`). -/
def escChar (c : Char) : List Char :=
  if c = '"' ∨ c = backslash then [backslash, c] else [c]

def escString (s : List Char) : List Char := (s.map escChar).flatten

def strLit (s : List Char) : List Char := '"' :: (escString s ++ ['"'])

def litNull : List Char := ['n', 'u', 'l', 'l']

def litTrue : List Char := ['t', 'r', 'u', 'e']

def litFalse : List Char := ['f', 'a', 'l', 's', 'e']

mutual
def stringifyJson : Json → List Char
  | .null => litNull
  | .bool true => litTrue
  | .bool false => litFalse
  | .num n => natChars n
  | .str s => strLit s.data
  | .arr xs => '[' :: (stringifyElems xs ++ [']'])
  | .obj kvs => openBrace :: (stringifyMembers kvs ++ [closeBrace])
def stringifyElems : List Json → List Char
  | [] => []
  | [x] => stringifyJson x
  | x :: xs => stringifyJson x ++ ',' :: stringifyElems xs
def stringifyMembers : List (String × Json) → List Char
  | [] => []
  | [(k, v)] => strLit k.data ++ ':' :: stringifyJson v
  | (k, v) :: ms => strLit k.data ++ ':' :: stringifyJson v ++ ',' :: stringifyMembers ms
end

def isDigitCh (c : Char) : Bool := 48 ≤ c.toNat ∧ c.toNat ≤ 57

def digitsVal (ds : List Char) : Nat := ds.foldl (fun a c => 10 * a + (c.toNat - 48)) 0

def spanDigits : List Char → List Char × List Char
  | [] => ([], [])
  | c :: cs =>
    if isDigitCh c then
      let p := spanDigits cs
      (c :: p.1, p.2)
    else ([], c :: cs)

/-- The body of a string literal after its opening quote: a backslash takes
the next character verbatim, a bare quote closes. -/
def parseStrBody : List Char → List Char → Option (List Char × List Char)
  | _, [] => none
  | acc, c :: rest =>
    if c = backslash then
      match rest with
      | e :: rest2 => parseStrBody (e :: acc) rest2
      | [] => none
    else if c = '"' then some (acc.reverse, rest)
    else parseStrBody (c :: acc) rest

/-- Match an exact literal continuation (the tails of `null`, `true`,
`false`). -/
def expectLit : List Char → List Char → Option (List Char)
  | [], rest => some rest
  | c :: cs, d :: rest => if d = c then expectLit cs rest else none
  | _ :: _, [] => none

mutual
def parseVal : Nat → List Char → Option (Json × List Char)
  | 0, _ => none
  | _ + 1, [] => none
  | fuel + 1, c :: r =>
    if c = 'n' then
      match expectLit ['u', 'l', 'l'] r with
      | some r2 => some (.null, r2)
      | none => none
    else if c = 't' then
      match expectLit ['r', 'u', 'e'] r with
      | some r2 => some (.bool true, r2)
      | none => none
    else if c = 'f' then
      match expectLit ['a', 'l', 's', 'e'] r with
      | some r2 => some (.bool false, r2)
      | none => none
    else if c = '"' then
      match parseStrBody [] r with
      | some (s, r2) => some (.str ⟨s⟩, r2)
      | none => none
    else if c = '[' then
      match r with
      | [] => none
      | d :: r2 =>
        if d = ']' then some (.arr [], r2)
        else
          match parseElems fuel (d :: r2) with
          | some (es, r3) =>
            match r3 with
            | e :: r4 => if e = ']' then some (.arr es, r4) else none
            | [] => none
          | none => none
    else if c = openBrace then
      match r with
      | [] => none
      | d :: r2 =>
        if d = closeBrace then some (.obj [], r2)
        else
          match parseMembers fuel (d :: r2) with
          | some (ms, r3) =>
            match r3 with
            | e :: r4 => if e = closeBrace then some (.obj ms, r4) else none
            | [] => none
          | none => none
    else if isDigitCh c then
      let p := spanDigits (c :: r)
      some (.num (digitsVal p.1), p.2)
    else none

def parseElems : Nat → List Char → Option (List Json × List Char)
  | 0, _ => none
  | fuel + 1, cs =>
    match parseVal fuel cs with
    | none => none
    | some (v, r2) =>
      match r2 with
      | [] => some ([v], [])
      | c :: r3 =>
        if c = ',' then
          match parseElems fuel r3 with
          | some (vs, r4) => some (v :: vs, r4)
          | none => none
        else some ([v], c :: r3)

def parseMembers : Nat → List Char → Option (List (String × Json) × List Char)
  | 0, _ => none
  | fuel + 1, cs =>
    match cs with
    | [] => none
    | c :: r =>
      if c = '"' then
        match parseStrBody [] r with
        | none => none
        | some (key, r1) =>
          match r1 with
          | [] => none
          | c1 :: r2 =>
            if c1 = ':' then
              match parseVal fuel r2 with
              | none => none
              | some (v, r3) =>
                match r3 with
                | [] => some ([(⟨key⟩, v)], [])
                | c2 :: r4 =>
                  if c2 = ',' then
                    match parseMembers fuel r4 with
                    | some (ms, r5) => some ((⟨key⟩, v) :: ms, r5)
                    | none => none
                  else some ([(⟨key⟩, v)], c2 :: r4)
            else none
      else none
end

/-- `JSON.parse` on the model grammar: a whole-input value.  The fuel
`2 * length + 1` dominates the recursion depth of any parseable input. -/
def jsonParse (cs : List Char) : Option Json :=
  match parseVal (2 * cs.length + 1) cs with
  | some (j, []) => some j
  | _ => none

/-! ### Digit runs invert `natChars` -/

theorem digitSpec (k : Nat) (h : k < 10) :
    (Char.ofNat (48 + k)).toNat = 48 + k ∧ isDigitCh (Char.ofNat (48 + k)) = true := by
  interval_cases k <;> exact ⟨rfl, rfl⟩

theorem natChars_step (n : Nat) (h : ¬ n < 10) :
    natChars n = natCharsAux n (n / 10) [Char.ofNat (48 + n % 10)] := by
  rw [natChars, natCharsAux, if_neg h]

theorem natCharsAux_eq (fuel : Nat) :
    ∀ n, n < fuel → ∀ acc, natCharsAux fuel n acc = natChars n ++ acc := by
  induction fuel using Nat.strong_induction_on with
  | _ fuel ih =>
    match fuel with
    | 0 => exact fun n hn => absurd hn (by omega)
    | f + 1 =>
      intro n hn acc
      rw [natCharsAux]
      by_cases h10 : n < 10
      · rw [if_pos h10, natChars, natCharsAux, if_pos h10, List.singleton_append]
      · rw [if_neg h10]
        have hdiv : n / 10 < n := Nat.div_lt_self (by omega) (by omega)
        rw [ih f (by omega) (n / 10) (by omega)]
        rw [natChars_step n h10, ih n (by omega) (n / 10) hdiv]
        simp

theorem natChars_unfold (n : Nat) :
    natChars n = (if n < 10 then [] else natChars (n / 10)) ++ [Char.ofNat (48 + n % 10)] := by
  by_cases h10 : n < 10
  · rw [if_pos h10, natChars, natCharsAux, if_pos h10, Nat.mod_eq_of_lt h10,
      List.nil_append]
  · rw [if_neg h10, natChars_step n h10]
    have hdiv : n / 10 < n := Nat.div_lt_self (by omega) (by omega)
    rw [natCharsAux_eq n (n / 10) hdiv]

theorem natChars_cons (n : Nat) :
    ∃ c t, natChars n = c :: t ∧ isDigitCh c = true := by
  induction n using Nat.strong_induction_on with
  | _ n ih =>
    rw [natChars_unfold]
    by_cases h10 : n < 10
    · exact ⟨_, _, by rw [if_pos h10, List.nil_append],
        (digitSpec (n % 10) (Nat.mod_lt _ (by omega))).2⟩
    · have hdiv : n / 10 < n := Nat.div_lt_self (by omega) (by omega)
      obtain ⟨c, t, hct, hd⟩ := ih (n / 10) hdiv
      exact ⟨c, t ++ [Char.ofNat (48 + n % 10)], by rw [if_neg h10, hct]; rfl, hd⟩

theorem natChars_digits (n : Nat) : ∀ c ∈ natChars n, isDigitCh c = true := by
  induction n using Nat.strong_induction_on with
  | _ n ih =>
    rw [natChars_unfold]
    intro c hc
    rw [List.mem_append] at hc
    rcases hc with hc | hc
    · by_cases h10 : n < 10
      · rw [if_pos h10] at hc
        cases hc
      · rw [if_neg h10] at hc
        exact ih (n / 10) (Nat.div_lt_self (by omega) (by omega)) c hc
    · rw [List.mem_singleton] at hc
      subst hc
      exact (digitSpec (n % 10) (Nat.mod_lt _ (by omega))).2

theorem digitsVal_append_single (xs : List Char) (c : Char) :
    digitsVal (xs ++ [c]) = 10 * digitsVal xs + (c.toNat - 48) := by
  rw [digitsVal, List.foldl_append]
  rfl

theorem digitsVal_natChars (n : Nat) : digitsVal (natChars n) = n := by
  induction n using Nat.strong_induction_on with
  | _ n ih =>
    rw [natChars_unfold, digitsVal_append_single,
      (digitSpec (n % 10) (Nat.mod_lt _ (by omega))).1]
    by_cases h10 : n < 10
    · rw [if_pos h10]
      simp [digitsVal]
      omega
    · rw [if_neg h10, ih (n / 10) (Nat.div_lt_self (by omega) (by omega))]
      omega

/-- A remainder that cannot extend a digit run: empty or headed by a
non-digit (all JSON delimiters qualify). -/
def numDelimOk : List Char → Bool
  | [] => true
  | c :: _ => !(isDigitCh c)

def headNotComma : List Char → Bool
  | [] => true
  | c :: _ => c ≠ ','

theorem spanDigits_stop (cs : List Char) (h : numDelimOk cs = true) :
    spanDigits cs = ([], cs) := by
  cases cs with
  | nil => rfl
  | cons c r =>
    simp only [numDelimOk, Bool.not_eq_true'] at h
    rw [spanDigits, if_neg (by rw [h]; exact Bool.false_ne_true)]

theorem spanDigits_run (ds : List Char) (hds : ∀ c ∈ ds, isDigitCh c = true) :
    ∀ rest, spanDigits rest = ([], rest) → spanDigits (ds ++ rest) = (ds, rest) := by
  induction ds with
  | nil => intro rest h; simpa using h
  | cons c t ih =>
    intro rest h
    rw [List.cons_append, spanDigits, if_pos (hds c (List.mem_cons_self ..))]
    rw [ih (fun x hx => hds x (List.mem_cons_of_mem _ hx)) rest h]

theorem digit_not_marker (c : Char) (h : isDigitCh c = true) :
    c ≠ 'n' ∧ c ≠ 't' ∧ c ≠ 'f' ∧ c ≠ '"' ∧ c ≠ '[' ∧ c ≠ openBrace := by
  refine ⟨?_, ?_, ?_, ?_, ?_, ?_⟩ <;> exact fun he => by subst he; revert h; decide

/-! ### String literals invert `parseStrBody` -/

theorem parseStrBody_cons (acc : List Char) (c : Char) (rest : List Char) :
    parseStrBody acc (c :: rest)
      = if c = backslash then
          (match rest with
           | e :: rest2 => parseStrBody (e :: acc) rest2
           | [] => none)
        else if c = '"' then some (acc.reverse, rest)
        else parseStrBody (c :: acc) rest := by
  rw [parseStrBody.eq_def]

theorem parseStrBody_esc (s : List Char) : ∀ (acc rest : List Char),
    parseStrBody acc (escString s ++ '"' :: rest) = some (acc.reverse ++ s, rest) := by
  induction s with
  | nil =>
    intro acc rest
    show parseStrBody acc ('"' :: rest) = some (acc.reverse ++ [], rest)
    rw [parseStrBody_cons, if_neg (by decide), if_pos rfl, List.append_nil]
  | cons c cs ih =>
    intro acc rest
    have hesc : escString (c :: cs) ++ '"' :: rest
        = escChar c ++ (escString cs ++ '"' :: rest) := by
      simp [escString]
    rw [hesc, escChar]
    by_cases hc : c = '"' ∨ c = backslash
    · rw [if_pos hc, List.cons_append, List.cons_append, List.nil_append]
      rw [parseStrBody_cons, if_pos rfl]
      show parseStrBody (c :: acc) (escString cs ++ '"' :: rest)
          = some (acc.reverse ++ c :: cs, rest)
      rw [ih (c :: acc) rest]
      simp
    · rw [if_neg hc, List.cons_append, List.nil_append]
      push_neg at hc
      rw [parseStrBody_cons, if_neg hc.2, if_neg hc.1]
      rw [ih (c :: acc) rest]
      simp

/-- Every rendered JSON value begins with a character that is not `]`. -/
theorem stringify_head (j : Json) : ∃ c t, stringifyJson j = c :: t ∧ c ≠ ']' := by
  cases j with
  | null => exact ⟨'n', _, rfl, by decide⟩
  | bool b => cases b with
    | true => exact ⟨'t', _, rfl, by decide⟩
    | false => exact ⟨'f', _, rfl, by decide⟩
  | num n =>
    obtain ⟨c, t, hct, hd⟩ := natChars_cons n
    refine ⟨c, t, by rw [show stringifyJson (.num n) = natChars n from rfl, hct], ?_⟩
    exact fun he => by subst he; revert hd; decide
  | str s => exact ⟨'"', _, rfl, by decide⟩
  | arr xs => exact ⟨'[', _, rfl, by decide⟩
  | obj ms => exact ⟨openBrace, _, rfl, by decide⟩

/-! ### The fuel budget of a value -/

mutual
def jfuel : Json → Nat
  | .null => 1
  | .bool _ => 1
  | .num _ => 1
  | .str _ => 1
  | .arr xs => 1 + jfuelElems xs
  | .obj ms => 1 + jfuelMembers ms
def jfuelElems : List Json → Nat
  | [] => 0
  | x :: xs => 1 + jfuel x + jfuelElems xs
def jfuelMembers : List (String × Json) → Nat
  | [] => 0
  | (_, v) :: ms => 1 + jfuel v + jfuelMembers ms
end

theorem jfuel_pos (j : Json) : 1 ≤ jfuel j := by
  cases j <;> simp [jfuel]

set_option maxHeartbeats 1000000 in
/-- One-step unfolding of `parseVal` at successor fuel on a nonempty input. -/
theorem parseVal_cons (fuel : Nat) (c : Char) (r : List Char) :
    parseVal (fuel + 1) (c :: r)
      = (if c = 'n' then
          match expectLit ['u', 'l', 'l'] r with
          | some r2 => some (.null, r2)
          | none => none
        else if c = 't' then
          match expectLit ['r', 'u', 'e'] r with
          | some r2 => some (.bool true, r2)
          | none => none
        else if c = 'f' then
          match expectLit ['a', 'l', 's', 'e'] r with
          | some r2 => some (.bool false, r2)
          | none => none
        else if c = '"' then
          match parseStrBody [] r with
          | some (s, r2) => some (.str ⟨s⟩, r2)
          | none => none
        else if c = '[' then
          match r with
          | [] => none
          | d :: r2 =>
            if d = ']' then some (.arr [], r2)
            else
              match parseElems fuel (d :: r2) with
              | some (es, r3) =>
                match r3 with
                | e :: r4 => if e = ']' then some (.arr es, r4) else none
                | [] => none
              | none => none
        else if c = openBrace then
          match r with
          | [] => none
          | d :: r2 =>
            if d = closeBrace then some (.obj [], r2)
            else
              match parseMembers fuel (d :: r2) with
              | some (ms, r3) =>
                match r3 with
                | e :: r4 => if e = closeBrace then some (.obj ms, r4) else none
                | [] => none
              | none => none
        else if isDigitCh c then
          let p := spanDigits (c :: r)
          some (.num (digitsVal p.1), p.2)
        else none) := rfl

theorem parseElems_step (fuel : Nat) (cs : List Char) :
    parseElems (fuel + 1) cs
      = (match parseVal fuel cs with
        | none => none
        | some (v, r2) =>
          match r2 with
          | [] => some ([v], [])
          | c :: r3 =>
            if c = ',' then
              match parseElems fuel r3 with
              | some (vs, r4) => some (v :: vs, r4)
              | none => none
            else some ([v], c :: r3)) := by
  rw [parseElems.eq_def]

theorem parseMembers_cons (fuel : Nat) (c : Char) (r : List Char) :
    parseMembers (fuel + 1) (c :: r)
      = (if c = '"' then
          match parseStrBody [] r with
          | none => none
          | some (key, r1) =>
            match r1 with
            | [] => none
            | c1 :: r2 =>
              if c1 = ':' then
                match parseVal fuel r2 with
                | none => none
                | some (v, r3) =>
                  match r3 with
                  | [] => some ([(⟨key⟩, v)], [])
                  | c2 :: r4 =>
                    if c2 = ',' then
                      match parseMembers fuel r4 with
                      | some (ms, r5) => some ((⟨key⟩, v) :: ms, r5)
                      | none => none
                    else some ([(⟨key⟩, v)], c2 :: r4)
              else none
        else none) := by
  rw [parseMembers.eq_def]

/-! ### The codec round trip: the parser inverts `stringifyJson` -/

mutual
theorem rtVal : ∀ (j : Json) (fuel : Nat) (rest : List Char),
    jfuel j ≤ fuel → numDelimOk rest = true →
    parseVal fuel (stringifyJson j ++ rest) = some (j, rest)
  | .null, fuel, rest, hf, _ => by
    rcases fuel with _ | f
    · exact absurd hf (by simp [jfuel])
    · show parseVal (f + 1) ('n' :: 'u' :: 'l' :: 'l' :: rest) = some (.null, rest)
      rw [parseVal_cons, if_pos rfl]
      rfl
  | .bool b, fuel, rest, hf, _ => by
    rcases fuel with _ | f
    · exact absurd hf (by simp [jfuel])
    · cases b
      · show parseVal (f + 1) ('f' :: 'a' :: 'l' :: 's' :: 'e' :: rest)
            = some (.bool false, rest)
        rw [parseVal_cons, if_neg (by decide), if_neg (by decide), if_pos rfl]
        rfl
      · show parseVal (f + 1) ('t' :: 'r' :: 'u' :: 'e' :: rest) = some (.bool true, rest)
        rw [parseVal_cons, if_neg (by decide), if_pos rfl]
        rfl
  | .num n, fuel, rest, hf, hr => by
    rcases fuel with _ | f
    · exact absurd hf (by simp [jfuel])
    · obtain ⟨c0, t0, h0, hd0⟩ := natChars_cons n
      obtain ⟨hn, ht, hf2, hq, hbk, hob⟩ := digit_not_marker c0 hd0
      have harg : stringifyJson (.num n) ++ rest = c0 :: (t0 ++ rest) := by
        show natChars n ++ rest = c0 :: (t0 ++ rest)
        rw [h0]
        rfl
      rw [harg, parseVal_cons, if_neg hn, if_neg ht, if_neg hf2, if_neg hq,
        if_neg hbk, if_neg hob, if_pos hd0]
      have hspan : spanDigits (c0 :: (t0 ++ rest)) = (natChars n, rest) := by
        rw [show c0 :: (t0 ++ rest) = natChars n ++ rest from by rw [h0]; rfl]
        exact spanDigits_run (natChars n) (natChars_digits n) rest (spanDigits_stop rest hr)
      simp only [hspan, digitsVal_natChars]
  | .str s, fuel, rest, hf, _ => by
    rcases fuel with _ | f
    · exact absurd hf (by simp [jfuel])
    · have harg : stringifyJson (.str s) ++ rest
          = '"' :: (escString s.data ++ '"' :: rest) := by
        show strLit s.data ++ rest = _
        rw [strLit]
        simp
      rw [harg, parseVal_cons, if_neg (by decide), if_neg (by decide), if_neg (by decide),
        if_pos rfl, parseStrBody_esc s.data [] rest]
      simp only [List.reverse_nil, List.nil_append]
  | .arr [], fuel, rest, hf, _ => by
    rcases fuel with _ | f
    · exact absurd hf (by simp [jfuel, jfuelElems])
    · show parseVal (f + 1) ('[' :: ']' :: rest) = some (.arr [], rest)
      rw [parseVal_cons, if_neg (by decide), if_neg (by decide), if_neg (by decide),
        if_neg (by decide), if_pos rfl]
      simp only [if_true]
  | .arr (x :: xs), fuel, rest, hf, _ => by
    rcases fuel with _ | f
    · have := jfuel_pos (.arr (x :: xs))
      omega
    · obtain ⟨c0, t0, h0, hbr⟩ := stringify_head x
      obtain ⟨u, hu⟩ : ∃ u, stringifyElems (x :: xs) = c0 :: u := by
        cases xs with
        | nil => exact ⟨t0, by rw [show stringifyElems [x] = stringifyJson x from rfl, h0]⟩
        | cons y ys =>
          refine ⟨t0 ++ ',' :: stringifyElems (y :: ys), ?_⟩
          rw [show stringifyElems (x :: y :: ys)
              = stringifyJson x ++ ',' :: stringifyElems (y :: ys) from rfl, h0]
          rfl
      have harg : stringifyJson (.arr (x :: xs)) ++ rest
          = '[' :: (c0 :: (u ++ ']' :: rest)) := by
        show ('[' :: (stringifyElems (x :: xs) ++ [']'])) ++ rest = _
        rw [hu]
        simp
      rw [harg, parseVal_cons, if_neg (by decide), if_neg (by decide), if_neg (by decide),
        if_neg (by decide), if_pos rfl]
      simp only [hbr, if_false]
      rw [show c0 :: (u ++ ']' :: rest) = stringifyElems (x :: xs) ++ ']' :: rest from by
        rw [hu]; rfl]
      rw [rtElems x xs f (']' :: rest) (by simp only [jfuel] at hf; omega) rfl rfl]
      rfl
  | .obj [], fuel, rest, hf, _ => by
    rcases fuel with _ | f
    · exact absurd hf (by simp [jfuel, jfuelMembers])
    · show parseVal (f + 1) (openBrace :: closeBrace :: rest) = some (.obj [], rest)
      rw [parseVal_cons, if_neg (by decide), if_neg (by decide), if_neg (by decide),
        if_neg (by decide), if_neg (by decide), if_pos rfl]
      simp only [if_true]
  | .obj ((k, v) :: ms), fuel, rest, hf, _ => by
    rcases fuel with _ | f
    · have := jfuel_pos (.obj ((k, v) :: ms))
      omega
    · obtain ⟨u, hu⟩ : ∃ u, stringifyMembers ((k, v) :: ms) = '"' :: u := by
        cases ms with
        | nil =>
          refine ⟨escString k.data ++ '"' :: ':' :: stringifyJson v, ?_⟩
          rw [show stringifyMembers [(k, v)] = strLit k.data ++ ':' :: stringifyJson v
            from rfl, strLit]
          simp
        | cons m2 ms2 =>
          refine ⟨escString k.data ++ '"' :: ':'
              :: (stringifyJson v ++ ',' :: stringifyMembers (m2 :: ms2)), ?_⟩
          rw [show stringifyMembers ((k, v) :: m2 :: ms2)
              = strLit k.data ++ ':' :: stringifyJson v ++ ',' :: stringifyMembers (m2 :: ms2)
            from rfl, strLit]
          simp
      have harg : stringifyJson (.obj ((k, v) :: ms)) ++ rest
          = openBrace :: ('"' :: (u ++ closeBrace :: rest)) := by
        show (openBrace :: (stringifyMembers ((k, v) :: ms) ++ [closeBrace])) ++ rest = _
        rw [hu]
        simp
      rw [harg, parseVal_cons, if_neg (by decide), if_neg (by decide), if_neg (by decide),
        if_neg (by decide), if_neg (by decide), if_pos rfl]
      simp only [show ¬(('"' : Char) = closeBrace) from by decide, if_false]
      rw [show '"' :: (u ++ closeBrace :: rest)
          = stringifyMembers ((k, v) :: ms) ++ closeBrace :: rest from by rw [hu]; rfl]
      rw [rtMembers k v ms f (closeBrace :: rest) (by simp only [jfuel] at hf; omega)
        rfl rfl]
      simp only [if_true]
termination_by j _ _ _ _ => sizeOf j

theorem rtElems : ∀ (x : Json) (xs : List Json) (fuel : Nat) (rest : List Char),
    jfuelElems (x :: xs) ≤ fuel → numDelimOk rest = true → headNotComma rest = true →
    parseElems fuel (stringifyElems (x :: xs) ++ rest) = some (x :: xs, rest)
  | x, [], fuel, rest, hf, hr, hc => by
    rcases fuel with _ | f
    · exact absurd hf (by simp [jfuelElems])
    · rw [show stringifyElems [x] ++ rest = stringifyJson x ++ rest from rfl,
        parseElems_step,
        rtVal x f rest (by simp only [jfuelElems, jfuel] at hf ⊢; omega) hr]
      rcases rest with _ | ⟨c, r⟩
      · rfl
      · have hcc : ¬ c = ',' := by simpa [headNotComma] using hc
        show (if c = ',' then
              match parseElems f r with
              | some (vs, r4) => some (x :: vs, r4)
              | none => none
            else some ([x], c :: r)) = some ([x], c :: r)
        rw [if_neg hcc]
  | x, y :: ys, fuel, rest, hf, hr, hc => by
    rcases fuel with _ | f
    · exact absurd hf (by simp [jfuelElems]; try omega)
    · have harg : stringifyElems (x :: y :: ys) ++ rest
          = stringifyJson x ++ (',' :: (stringifyElems (y :: ys) ++ rest)) := by
        rw [show stringifyElems (x :: y :: ys)
            = stringifyJson x ++ ',' :: stringifyElems (y :: ys) from rfl]
        simp
      rw [harg, parseElems_step,
        rtVal x f (',' :: (stringifyElems (y :: ys) ++ rest))
          (by simp only [jfuelElems] at hf; omega) rfl]
      show (if (',' : Char) = ',' then
            match parseElems f (stringifyElems (y :: ys) ++ rest) with
            | some (vs, r4) => some (x :: vs, r4)
            | none => none
          else some ([x], ',' :: (stringifyElems (y :: ys) ++ rest)))
          = some (x :: y :: ys, rest)
      rw [if_pos rfl,
        rtElems y ys f rest (by simp only [jfuelElems] at hf ⊢; omega) hr hc]
termination_by x xs _ _ _ _ _ => sizeOf x + sizeOf xs

theorem rtMembers : ∀ (k : String) (v : Json) (ms : List (String × Json))
    (fuel : Nat) (rest : List Char),
    jfuelMembers ((k, v) :: ms) ≤ fuel → numDelimOk rest = true →
    headNotComma rest = true →
    parseMembers fuel (stringifyMembers ((k, v) :: ms) ++ rest) = some ((k, v) :: ms, rest)
  | k, v, [], fuel, rest, hf, hr, hc => by
    rcases fuel with _ | f
    · exact absurd hf (by simp [jfuelMembers])
    · have harg : stringifyMembers [(k, v)] ++ rest
          = '"' :: (escString k.data ++ '"' :: (':' :: (stringifyJson v ++ rest))) := by
        rw [show stringifyMembers [(k, v)] = strLit k.data ++ ':' :: stringifyJson v
          from rfl, strLit]
        simp
      rw [harg, parseMembers_cons, if_pos rfl,
        parseStrBody_esc k.data [] (':' :: (stringifyJson v ++ rest))]
      simp only [List.reverse_nil, List.nil_append]
      show (if (':' : Char) = ':' then
            match parseVal f (stringifyJson v ++ rest) with
            | none => none
            | some (w, r3) =>
              match r3 with
              | [] => some ([(⟨k.data⟩, w)], [])
              | c2 :: r4 =>
                if c2 = ',' then
                  match parseMembers f r4 with
                  | some (ms, r5) => some ((⟨k.data⟩, w) :: ms, r5)
                  | none => none
                else some ([(⟨k.data⟩, w)], c2 :: r4)
          else none) = some ([(k, v)], rest)
      rw [if_pos rfl,
        rtVal v f rest (by simp only [jfuelMembers, jfuel] at hf ⊢; omega) hr]
      rcases rest with _ | ⟨c, r⟩
      · rfl
      · have hcc : ¬ c = ',' := by simpa [headNotComma] using hc
        show (if c = ',' then
              match parseMembers f r with
              | some (ms, r5) => some ((⟨k.data⟩, v) :: ms, r5)
              | none => none
            else some ([(⟨k.data⟩, v)], c :: r)) = some ([(k, v)], c :: r)
        rw [if_neg hcc]
  | k, v, (k2, v2) :: ms2, fuel, rest, hf, hr, hc => by
    rcases fuel with _ | f
    · exact absurd hf (by simp [jfuelMembers]; try omega)
    · have harg : stringifyMembers ((k, v) :: (k2, v2) :: ms2) ++ rest
          = '"' :: (escString k.data ++ '"' :: (':' :: (stringifyJson v
              ++ (',' :: (stringifyMembers ((k2, v2) :: ms2) ++ rest))))) := by
        rw [show stringifyMembers ((k, v) :: (k2, v2) :: ms2)
            = strLit k.data ++ ':' :: stringifyJson v
                ++ ',' :: stringifyMembers ((k2, v2) :: ms2) from rfl, strLit]
        simp
      rw [harg, parseMembers_cons, if_pos rfl,
        parseStrBody_esc k.data []
          (':' :: (stringifyJson v ++ (',' :: (stringifyMembers ((k2, v2) :: ms2) ++ rest))))]
      simp only [List.reverse_nil, List.nil_append]
      show (if (':' : Char) = ':' then
            match parseVal f (stringifyJson v
                ++ (',' :: (stringifyMembers ((k2, v2) :: ms2) ++ rest))) with
            | none => none
            | some (w, r3) =>
              match r3 with
              | [] => some ([(⟨k.data⟩, w)], [])
              | c2 :: r4 =>
                if c2 = ',' then
                  match parseMembers f r4 with
                  | some (ms, r5) => some ((⟨k.data⟩, w) :: ms, r5)
                  | none => none
                else some ([(⟨k.data⟩, w)], c2 :: r4)
          else none) = some ((k, v) :: (k2, v2) :: ms2, rest)
      rw [if_pos rfl,
        rtVal v f (',' :: (stringifyMembers ((k2, v2) :: ms2) ++ rest))
          (by simp only [jfuelMembers] at hf; omega) rfl]
      show (if (',' : Char) = ',' then
            match parseMembers f (stringifyMembers ((k2, v2) :: ms2) ++ rest) with
            | some (ms, r5) => some ((⟨k.data⟩, v) :: ms, r5)
            | none => none
          else some ([(⟨k.data⟩, v)], ',' :: (stringifyMembers ((k2, v2) :: ms2) ++ rest)))
          = some ((k, v) :: (k2, v2) :: ms2, rest)
      rw [if_pos rfl,
        rtMembers k2 v2 ms2 f rest (by simp only [jfuelMembers] at hf ⊢; omega) hr hc]
termination_by k v ms _ _ _ _ _ => sizeOf k + sizeOf v + sizeOf ms
end

/-! ### The rendering of a value funds its own parse -/

mutual
theorem jfuel_le : ∀ j : Json, jfuel j ≤ (stringifyJson j).length
  | .null => by simp [jfuel, stringifyJson, litNull]
  | .bool true => by simp [jfuel, stringifyJson, litTrue]
  | .bool false => by simp [jfuel, stringifyJson, litFalse]
  | .num n => by
    obtain ⟨c, t, hct, _⟩ := natChars_cons n
    rw [show stringifyJson (.num n) = natChars n from rfl, hct]
    simp [jfuel]
  | .str s => by
    rw [show stringifyJson (.str s) = strLit s.data from rfl, strLit]
    simp [jfuel]
  | .arr xs => by
    have h := jfuelElems_le xs
    rw [show stringifyJson (.arr xs) = '[' :: (stringifyElems xs ++ [']']) from rfl]
    simp only [jfuel, List.length_cons, List.length_append]
    omega
  | .obj ms => by
    have h := jfuelMembers_le ms
    rw [show stringifyJson (.obj ms)
        = openBrace :: (stringifyMembers ms ++ [closeBrace]) from rfl]
    simp only [jfuel, List.length_cons, List.length_append]
    omega
termination_by j => sizeOf j

theorem jfuelElems_le : ∀ xs : List Json, jfuelElems xs ≤ 1 + (stringifyElems xs).length
  | [] => by simp [jfuelElems]
  | [x] => by
    have h := jfuel_le x
    rw [show stringifyElems [x] = stringifyJson x from rfl]
    simp only [jfuelElems]
    omega
  | x :: y :: ys => by
    have h1 := jfuel_le x
    have h2 := jfuelElems_le (y :: ys)
    rw [show stringifyElems (x :: y :: ys)
        = stringifyJson x ++ ',' :: stringifyElems (y :: ys) from rfl]
    simp only [jfuelElems, List.length_append, List.length_cons] at h2 ⊢
    omega
termination_by xs => sizeOf xs

theorem jfuelMembers_le : ∀ ms : List (String × Json),
    jfuelMembers ms ≤ 1 + (stringifyMembers ms).length
  | [] => by simp [jfuelMembers]
  | [(k, v)] => by
    have h := jfuel_le v
    rw [show stringifyMembers [(k, v)] = strLit k.data ++ ':' :: stringifyJson v from rfl]
    simp only [jfuelMembers, List.length_append, List.length_cons]
    omega
  | (k, v) :: m2 :: ms2 => by
    have h1 := jfuel_le v
    have h2 := jfuelMembers_le (m2 :: ms2)
    rw [show stringifyMembers ((k, v) :: m2 :: ms2)
        = strLit k.data ++ ':' :: stringifyJson v ++ ',' :: stringifyMembers (m2 :: ms2)
        from rfl]
    simp only [jfuelMembers, List.length_append, List.length_cons] at h2 ⊢
    omega
termination_by ms => sizeOf ms
end

/-- Rendering a value and parsing the result with `jsonParse` (whose fuel is
twice the input length plus one) restores the value. -/
theorem jsonParse_stringify (j : Json) : jsonParse (stringifyJson j) = some j := by
  have h := rtVal j (2 * (stringifyJson j).length + 1) []
    (by have := jfuel_le j; omega) rfl
  rw [List.append_nil] at h
  rw [jsonParse, h]

/-! ## The image-grid embed (src/unnamed/part_000)

`ImageGrid.create(value)` destructures `const ( data ) = value`, writes
`JSON.stringify(data)` into the attribute `image-grid-data` of the host
node made by `super.create()`, then builds the visual children (cursor,
guideline, drop helpers, one item container per entry).  Those children
carry no part of the value, so the host node is modelled as its attribute
map.  The construction throws — and the embedding returns `none` — when
`data` is not an array (`data.length`), when it is empty
(`imageGridItemWrapper.firstElementChild` is null), when an entry lacks an
`attributes` object (the destructurings in `reduce` and `forEach`), or
when a truthy `inline-comment` of positive length is not an array
(`inlineComment.forEach`).  `ImageGrid.value(domNode)` reads the attribute
back through `JSON.parse` and wraps it as `( data )`; a missing attribute
is `JSON.parse(null)`, which yields the JSON null. -/

structure IGNode where
  attrs : List (String × List Char)

def IGNode.getAttribute (n : IGNode) (k : String) : Option (List Char) :=
  (n.attrs.find? (fun p => p.1 == k)).map (fun p => p.2)

def IGNode.setAttribute (n : IGNode) (k : String) (v : List Char) : IGNode :=
  ⟨(k, v) :: n.attrs.filter (fun p => !(p.1 == k))⟩

/-- Property access `value.k` on a JSON value: `undefined` (`none`) unless
the value is an object carrying the key. -/
def jsGetField : Json → String → Option Json
  | .obj fields, k => (fields.find? (fun p => p.1 == k)).map (fun p => p.2)
  | _, _ => none

/-- An `inline-comment` entry over which `forEach` is reached only when it
is truthy with positive length: an array is iterable, null is skipped. -/
def inlineCommentOk : Json → Bool
  | .null => true
  | .arr _ => true
  | _ => false

/-- One grid entry survives the destructurings of `create`: an object whose
`attributes` is itself an object with an iterable `inline-comment`. -/
def itemLegal (item : Json) : Bool :=
  match item with
  | .obj fields =>
    match (fields.find? (fun p => p.1 == "attributes")).map (fun p => p.2) with
    | some (Json.obj afields) =>
      match (afields.find? (fun p => p.1 == "inline-comment")).map (fun p => p.2) with
      | none => true
      | some ic => inlineCommentOk ic
    | _ => false
  | _ => false

/-- `data` values on which `ImageGrid.create` runs to completion. -/
def dataLegal : Json → Bool
  | .arr items => !items.isEmpty && items.all itemLegal
  | _ => false

def ImageGrid.create (value : Json) : Option IGNode :=
  match jsGetField value "data" with
  | none => none
  | some data =>
    if dataLegal data then
      some (IGNode.setAttribute ⟨[]⟩ "image-grid-data" (stringifyJson data))
    else none

def ImageGrid.value (n : IGNode) : Option Json :=
  match n.getAttribute "image-grid-data" with
  | none => some (.obj [("data", .null)])
  | some s =>
    match jsonParse s with
    | some d => some (.obj [("data", d)])
    | none => none

/-- A JSON value that is falsy as a JavaScript value. -/
def jsFalsy : Json → Bool
  | .null => true
  | .bool false => true
  | .num 0 => true
  | .str s => s.data.isEmpty
  | _ => false

/-- `LeafBlot.prototype.value`: the static value under the blot name, with
`|| true` replacing a falsy static value. -/
def leafBlotValue (blotName : String) (v : Json) : Json :=
  .obj [(blotName, if jsFalsy v then .bool true else v)]

def ImageGrid.blotValue (n : IGNode) : Option Json :=
  (ImageGrid.value n).map (leafBlotValue "image-grid")

/-- C8: for every value from which `ImageGrid.create` succeeds — a value
whose `data` component the construction accepts — reading the blot back
through `LeafBlot.value` / `ImageGrid.value` reproduces that data exactly:
the JSON round trip through the host node attribute is the identity. -/
theorem imageGrid_roundtrip (value data : Json) (n : IGNode)
    (hd : jsGetField value "data" = some data)
    (hc : ImageGrid.create value = some n) :
    ImageGrid.blotValue n
      = some (Json.obj [("image-grid", Json.obj [("data", data)])]) := by
  rw [ImageGrid.create, hd] at hc
  simp only [] at hc
  by_cases hleg : dataLegal data = true
  · rw [if_pos hleg] at hc
    have hn : n = IGNode.setAttribute ⟨[]⟩ "image-grid-data" (stringifyJson data) :=
      (Option.some.injEq _ _ ▸ hc).symm
    subst hn
    rw [ImageGrid.blotValue, ImageGrid.value]
    rw [show (IGNode.setAttribute ⟨[]⟩ "image-grid-data"
          (stringifyJson data)).getAttribute "image-grid-data"
        = some (stringifyJson data) from rfl]
    simp only []
    rw [jsonParse_stringify]
    rfl
  · rw [if_neg hleg] at hc
    exact absurd hc (by simp)

def igWitnessData : Json :=
  Json.arr [Json.obj [("image", Json.str "https://x/a.png"),
    ("attributes", Json.obj [("ratio", Json.num 1), ("caption", Json.str "a b")])]]

def igWitnessValue : Json := Json.obj [("data", igWitnessData)]

def igWitnessNode : IGNode := ⟨[("image-grid-data", stringifyJson igWitnessData)]⟩

theorem imageGrid_roundtrip_witness :
    jsGetField igWitnessValue "data" = some igWitnessData ∧
    ImageGrid.create igWitnessValue = some igWitnessNode ∧
    ImageGrid.blotValue igWitnessNode
      = some (Json.obj [("image-grid", Json.obj [("data", igWitnessData)])]) :=
  ⟨rfl, rfl, imageGrid_roundtrip igWitnessValue igWitnessData igWitnessNode rfl rfl⟩

end Parchment
